import Mathlib

/-!
Verification development for the SecureVote voter-roll integrity core.

Modelling conventions (shallow embedding of the JavaScript services):
* Strings are modelled as lists of Unicode code points (List Nat); the
  JavaScript character classes used by the code (\w, \s, letters) are
  modelled on the ASCII range the services operate on.
* JavaScript numbers appearing in score arithmetic are modelled exactly
  over the rationals; Number.prototype.toFixed(2) is modelled as rounding
  half-up to hundredths.
* The SHA-256 digest primitive is an abstract parameter (a function on
  code-point lists); the services only pipe digests around, so every
  theorem that needs a property of the digest states it as a hypothesis.
* The relational store is modelled as an explicit state record of lists of
  rows; a service call is a function from state to result and new state,
  and a transaction that throws is modelled by the Except monad with the
  caller restoring the pre-transaction state (connection.rollback).
-/

/-- Code points of a string literal, used to write concrete inputs. -/
def codes (s : String) : List Nat := s.data.map Char.toNat

/-- JavaScript \s (ASCII part): space, tab, line feed, carriage return,
vertical tab, form feed. -/
def isWs (n : Nat) : Bool :=
  n = 32 || n = 9 || n = 10 || n = 13 || n = 11 || n = 12

/-- JavaScript \w: ASCII letters, digits and underscore. -/
def isWordChar (n : Nat) : Bool :=
  (48 ≤ n && n ≤ 57) || (65 ≤ n && n ≤ 90) || (97 ≤ n && n ≤ 122) || n = 95

/-- One code point of String.prototype.toLowerCase (ASCII range). -/
def lowerChar (n : Nat) : Nat :=
  if 65 ≤ n && n ≤ 90 then n + 32 else n

/-- String.prototype.toLowerCase. -/
def mapLower (l : List Nat) : List Nat := l.map lowerChar

/-- String.prototype.trim: strip leading and trailing whitespace. -/
def trimJs (l : List Nat) : List Nat :=
  ((l.dropWhile isWs).reverse.dropWhile isWs).reverse

/-- Helper for collapseWs: the flag records whether the previous character
was whitespace (so the current run already emitted its space). -/
def collapseWsAux : Bool → List Nat → List Nat
  | _, [] => []
  | prevWs, c :: cs =>
    if isWs c then
      if prevWs then collapseWsAux true cs else 32 :: collapseWsAux true cs
    else c :: collapseWsAux false cs

/-- replace(/\s+/g, single space): every maximal whitespace run becomes
one space (code 32). -/
def collapseWs (l : List Nat) : List Nat := collapseWsAux false l

/-- replace(/[^\w\s-]/g, empty): keep word characters, whitespace and
hyphen (code 45), drop everything else. -/
def stripPunct (l : List Nat) : List Nat :=
  l.filter (fun c => isWordChar c || isWs c || c = 45)

namespace AddressValidationService

/-- The inner component cleaner of normalizeAddress:
str.trim().toLowerCase().replace(whitespace-runs, space).replace(punct, empty). -/
def normalize (l : List Nat) : List Nat :=
  stripPunct (collapseWs (mapLower (trimJs l)))

/-- The abbreviation table of expandAbbreviation, in source order. -/
def abbreviations : List (List Nat × List Nat) :=
  [ (codes "st", codes "street"), (codes "rd", codes "road"),
    (codes "ave", codes "avenue"), (codes "blvd", codes "boulevard"),
    (codes "dr", codes "drive"), (codes "ln", codes "lane"),
    (codes "ct", codes "court"), (codes "pl", codes "place"),
    (codes "sq", codes "square"), (codes "n", codes "north"),
    (codes "s", codes "south"), (codes "e", codes "east"),
    (codes "w", codes "west"), (codes "no", codes "number"),
    (codes "apt", codes "apartment"), (codes "fl", codes "floor"),
    (codes "bldg", codes "building") ]

/-- Decompose a string into maximal runs (chunks) of characters agreeing
on isWordChar; word-boundary \b positions are exactly the borders between
chunks of different class and the string ends. -/
def chunks : List Nat → List (List Nat)
  | [] => []
  | c :: cs =>
    match chunks cs with
    | [] => [[c]]
    | [] :: ts => [c] :: [] :: ts
    | (d :: t) :: ts =>
      if isWordChar c = isWordChar d then (c :: d :: t) :: ts
      else [c] :: (d :: t) :: ts

/-- Flatten a chunk list back to a string. -/
def joinChunks (cs : List (List Nat)) : List Nat := cs.flatten

/-- One pass of replace(word-boundary abbr word-boundary, full, global):
since abbr consists of word characters only, a boundary-delimited
occurrence is exactly a maximal word run equal to abbr, so the pass maps
every chunk equal to abbr to full. -/
def expandPass (abbr full : List Nat) (l : List Nat) : List Nat :=
  joinChunks ((chunks l).map (fun t => if t = abbr then full else t))

/-- expandAbbreviation: lower-case, then apply the replacement passes in
table order (case-insensitivity of the regexes is moot on the
lower-cased string). -/
def expandAbbreviation (l : List Nat) : List Nat :=
  abbreviations.foldl (fun acc kv => expandPass kv.1 kv.2 acc) (mapLower l)

/-- The raw address components handed to normalizeAddress. -/
structure AddressComponents where
  house_number : List Nat
  street : List Nat
  village_city : List Nat
  district : List Nat
  state : List Nat
  pin_code : List Nat
deriving DecidableEq, Repr

/-- Result of normalizeAddress: the cleaned components and the canonical
comma-joined string. -/
structure NormalizedAddress where
  components : AddressComponents
  normalizedString : List Nat
deriving DecidableEq, Repr

/-- Join the truthy (non-empty) parts with a comma and a space. -/
def joinParts (parts : List (List Nat)) : List Nat :=
  List.intercalate [44, 32] (parts.filter (fun p => p ≠ []))

/-- normalizeAddress: clean every component (street additionally gets the
abbreviation expansion), trim the pin code, and join the non-empty
components with comma-space into the normalized string. -/
def normalizeAddress (c : AddressComponents) : NormalizedAddress :=
  let n : AddressComponents :=
    { house_number := normalize c.house_number
      street := expandAbbreviation (normalize c.street)
      village_city := normalize c.village_city
      district := normalize c.district
      state := normalize c.state
      pin_code := trimJs c.pin_code }
  { components := n
    normalizedString :=
      joinParts [n.house_number, n.street, n.village_city, n.district,
                 n.state, n.pin_code] }

/-- generateAddressHash: sha256 digest (abstract parameter H) of the
lower-cased, trimmed normalized string. -/
def generateAddressHash (H : List Nat → List Nat) (normalizedAddress : List Nat) :
    List Nat :=
  H (trimJs (mapLower normalizedAddress))

end AddressValidationService

/-- ASCII letter. -/
def isLetter (n : Nat) : Bool := (65 ≤ n && n ≤ 90) || (97 ≤ n && n ≤ 122)

/-- ASCII digit. -/
def isDigitCode (n : Nat) : Bool := 48 ≤ n && n ≤ 57

/-- Vowel (either case), as in the character classes of the name service. -/
def isVowel (n : Nat) : Bool :=
  n = 97 || n = 101 || n = 105 || n = 111 || n = 117 ||
  n = 65 || n = 69 || n = 73 || n = 79 || n = 85

/-- Consonant (either case): the explicit consonant classes of the name
service, which are exactly the letters that are not vowels. -/
def isConsonant (n : Nat) : Bool := isLetter n && !isVowel n

/-- One code point of String.prototype.toUpperCase (ASCII range). -/
def upperChar (n : Nat) : Nat :=
  if 97 ≤ n && n ≤ 122 then n - 32 else n

/-- String.prototype.toUpperCase. -/
def mapUpper (l : List Nat) : List Nat := l.map upperChar

/-- Helper for splitWs, carrying the current (reversed) token. -/
def splitWsAux : List Nat → List Nat → List (List Nat)
  | cur, [] => if cur = [] then [] else [cur.reverse]
  | cur, c :: cs =>
    if isWs c then
      if cur = [] then splitWsAux [] cs else cur.reverse :: splitWsAux [] cs
    else splitWsAux (c :: cur) cs

/-- split(/\s+/) with empty tokens dropped: the maximal non-whitespace
runs of the string. -/
def splitWs (l : List Nat) : List (List Nat) := splitWsAux [] l

/-- Number.prototype.toFixed(2) (followed by parseFloat), modelled as
rounding half-up to hundredths over the rationals. -/
def round2 (q : ℚ) : ℚ := (⌊q * 100 + 1 / 2⌋ : ℚ) / 100

/-- Math.min on rationals (spelled out so that the kernel can evaluate
closed instances). -/
def qmin (a b : ℚ) : ℚ := if a ≤ b then a else b

/-- Math.max on rationals. -/
def qmax (a b : ℚ) : ℚ := if a ≤ b then b else a

/-- The three-way categorical validation outcome shared by the name and
address services. -/
inductive VResult where
  | passed
  | flagged
  | rejected
deriving DecidableEq, Repr

namespace NameValidationService

/-- Outcome of validateBasicRules. -/
structure BasicCheck where
  valid : Bool
  reason : Option (List Nat)
deriving DecidableEq, Repr

/-- The suspicious token starts checked by validateBasicRules (each tested
case-insensitively at the start of a token). -/
def suspiciousStarts : List (List Nat) :=
  [codes "asdf", codes "qwerty", codes "test", codes "demo",
   codes "sample", codes "fake", codes "dummy", codes "xyz", codes "abc"]

/-- A token triggers a basic-rule failure: all characters identical
(length above 1), or a suspicious start. -/
def tokenBad (t : List Nat) : Bool :=
  decide (1 < t.length) &&
    ((match t with
      | [] => false
      | c :: cs => cs.all (fun d => d = c)) ||
     suspiciousStarts.any (fun p => p.isPrefixOf (mapLower t)))

/-- validateBasicRules: length bounds on the trimmed name, no digits, only
letters, whitespace, period, hyphen and apostrophe, token length at least
two (except literal I and A), no all-repeated token, no suspicious start. -/
def validateBasicRules (name : List Nat) : BasicCheck :=
  if name = [] then { valid := false, reason := some (codes "Name is required") }
  else
    let trimmed := trimJs name
    if trimmed.length < 4 then
      { valid := false, reason := some (codes "Name too short (minimum 4 characters)") }
    else if trimmed.length > 100 then
      { valid := false, reason := some (codes "Name too long (maximum 100 characters)") }
    else if trimmed.any isDigitCode then
      { valid := false, reason := some (codes "Name cannot contain digits") }
    else if trimmed.any (fun c =>
        !(isLetter c || isWs c || c = 46 || c = 45 || c = 39)) then
      { valid := false, reason := some (codes "Name contains invalid characters") }
    else
      let tokens := splitWs trimmed
      if tokens.any (fun t => t.length < 2 && t ≠ [73] && t ≠ [65]) then
        { valid := false,
          reason := some (codes "Each name part must be at least 2 characters") }
      else if tokens.any tokenBad then
        { valid := false, reason := some (codes "Name fails token pattern checks") }
      else { valid := true, reason := none }

/-- The Soundex digit of a letter (uppercase input), as a code point. -/
def soundexCode (n : Nat) : Option Nat :=
  if n = 66 || n = 70 || n = 80 || n = 86 then some 49
  else if n = 67 || n = 71 || n = 74 || n = 75 || n = 81 || n = 83 ||
      n = 88 || n = 90 then some 50
  else if n = 68 || n = 84 then some 51
  else if n = 76 then some 52
  else if n = 77 || n = 78 then some 53
  else if n = 82 then some 54
  else none

/-- The scanning loop of soundex: append the digit of each mapped letter
unless it equals the last appended character, stopping at length 4. -/
def soundexLoop : List Nat → List Nat → List Nat
  | acc, [] => acc
  | acc, c :: cs =>
    if 4 ≤ acc.length then acc
    else
      match soundexCode c with
      | some d => if acc.getLast? = some d then soundexLoop acc cs
                  else soundexLoop (acc ++ [d]) cs
      | none => soundexLoop acc cs

/-- padEnd(4, zero digit). -/
def padEnd4 (l : List Nat) : List Nat := l ++ List.replicate (4 - l.length) 48

/-- soundex: first letter of the uppercased token, then coded consonants
with adjacent duplicates dropped, padded with zeros to length 4. (The
source would fault on an empty token; the model returns the empty string
there.) -/
def soundex (name : List Nat) : List Nat :=
  match mapUpper name with
  | [] => []
  | c :: cs => padEnd4 (soundexLoop [c] cs)

/-- Outcome of checkPhoneticSanity. -/
structure PhoneticCheck where
  valid : Bool
  reason : Option (List Nat)
deriving DecidableEq, Repr

/-- The per-token phonetic test: tokens of length at least two need a
consonant, tokens of length above two need a vowel, and the
vowel-to-consonant ratio must not exceed 3. -/
def tokenPhoneticBad (t : List Nat) : Option (List Nat) :=
  if t.length < 2 then none
  else if !t.any isConsonant then some (codes "Name token lacks consonants")
  else if !t.any isVowel && decide (2 < t.length) then
    some (codes "Name token lacks vowels")
  else
    let vowelCount := (t.filter isVowel).length
    let consonantCount := (t.filter isConsonant).length
    if 0 < consonantCount && decide (3 * consonantCount < vowelCount) then
      some (codes "Unbalanced vowel-consonant ratio")
    else none

/-- checkPhoneticSanity over the whitespace-split tokens, returning the
first failure. -/
def checkPhoneticSanity (name : List Nat) : PhoneticCheck :=
  match (splitWs (trimJs name)).findSome? tokenPhoneticBad with
  | some r => { valid := false, reason := some r }
  | none => { valid := true, reason := none }

/-- A row of the name_frequency_lookup table: token, name type, frequency
score. -/
structure FreqRow where
  name_token : List Nat
  name_type : List Nat
  frequency_score : ℚ
deriving DecidableEq, Repr

/-- lookupNameFrequency: sum the frequency score of the first matching row
per token, then blend the average over all tokens (70 percent) with the
found ratio (30 percent), capped at 1. -/
def lookupNameFrequency (tbl : List FreqRow) (tokens : List (List Nat))
    (nameType : List Nat) : ℚ :=
  let found := tokens.filterMap (fun t =>
    (tbl.filter (fun r =>
      r.name_token = mapLower t && r.name_type = nameType)).head?)
  let totalScore := (found.map (·.frequency_score)).sum
  let foundCount := found.length
  if tokens.length = 0 then 0
  else
    let avgScore : ℚ := if 0 < foundCount then totalScore / tokens.length else 0
    let foundRatio : ℚ := (foundCount : ℚ) / (tokens.length : ℚ)
    qmin (avgScore * (7 / 10) + foundRatio * (3 / 10)) 1

/-- The piecewise composite score of calculateQualityScore before clamping:
length (20 percent), token count (15 percent), phonetic penalty, frequency
blend (30 percent), character diversity (10 percent), pattern bonus
(10 percent; the source's pattern loop assigns the same constant in both
branches). -/
def rawScore (tbl : List FreqRow) (name : List Nat) (nameType : List Nat) : ℚ :=
  let tokens := splitWs (trimJs name)
  let s1 : ℚ := 1 * (8 / 10) + qmin ((name.length : ℚ) / 20) 1 * (2 / 10)
  let s2 : ℚ := s1 * (85 / 100) + qmin ((tokens.length : ℚ) / 3) 1 * (15 / 100)
  let s3 : ℚ := if (checkPhoneticSanity name).valid then s2 else s2 * (5 / 10)
  let s4 : ℚ := s3 * (7 / 10) + lookupNameFrequency tbl tokens nameType * (3 / 10)
  let uniqueChars := (((mapLower name).filter (fun c => !isWs c)).dedup).length
  let s5 : ℚ := s4 * (9 / 10) + qmin ((uniqueChars : ℚ) / 10) 1 * (1 / 10)
  s5 * (9 / 10) + 1 / 10

/-- The clamped final quality score of calculateQualityScore (before the
two-decimal rounding applied to the returned score field). -/
def finalScore (tbl : List FreqRow) (name : List Nat) (nameType : List Nat) : ℚ :=
  qmax 0 (qmin 1 (rawScore tbl name nameType))

/-- The record returned by calculateQualityScore. -/
structure NameScore where
  score : ℚ
  valid : Bool
  reason : Option (List Nat)
  flags : List (List Nat)
  tokens : Option (List (List Nat))
  soundexCode : Option (List Nat)
deriving DecidableEq, Repr

/-- calculateQualityScore: basic-rule failures short-circuit to score 0;
otherwise the composite score is computed, the returned score is rounded
to two decimals, and validity is the unrounded score reaching 0.4. -/
def calculateQualityScore (tbl : List FreqRow) (name : List Nat)
    (nameType : List Nat) : NameScore :=
  let basicCheck := validateBasicRules name
  if !basicCheck.valid then
    { score := 0, valid := false, reason := basicCheck.reason,
      flags := [codes "basic_validation_failed"], tokens := none,
      soundexCode := none }
  else
    let tokens := splitWs (trimJs name)
    let fs := finalScore tbl name nameType
    let phoneticFlags :=
      if (checkPhoneticSanity name).valid then [] else [codes "phonetic_issues"]
    let qualityFlags :=
      if fs < 4 / 10 then [codes "low_quality"]
      else if fs < 7 / 10 then [codes "medium_quality"]
      else []
    { score := round2 fs, valid := decide (4 / 10 ≤ fs),
      reason := none, flags := phoneticFlags ++ qualityFlags,
      tokens := some tokens,
      soundexCode := some (soundex (tokens.head?.getD [])) }

/-- The record returned by validateName. -/
structure NameValidation where
  qualityScore : ℚ
  valid : Bool
  flags : List (List Nat)
  reason : Option (List Nat)
  validationResult : VResult
deriving DecidableEq, Repr

/-- validateName: expose the quality-score record, classifying the rounded
score with thresholds 0.8 (passed) and 0.5 (flagged). -/
def validateName (tbl : List FreqRow) (name : List Nat)
    (nameType : List Nat) : NameValidation :=
  let result := calculateQualityScore tbl name nameType
  { qualityScore := result.score, valid := result.valid,
    flags := result.flags, reason := result.reason,
    validationResult :=
      if 8 / 10 ≤ result.score then .passed
      else if 5 / 10 ≤ result.score then .flagged
      else .rejected }

end NameValidationService

/-- String.prototype.split(separator) keeping empty parts (the empty
string splits to one empty part, as in JavaScript). -/
def splitChar (sep : Nat) : List Nat → List (List Nat)
  | [] => [[]]
  | c :: cs =>
    let r := splitChar sep cs
    if c = sep then [] :: r
    else
      match r with
      | [] => [[c]]
      | t :: ts => (c :: t) :: ts

/-- Hexadecimal digit value of a code point. -/
def hexDigitVal (c : Nat) : Option Nat :=
  if 48 ≤ c && c ≤ 57 then some (c - 48)
  else if 97 ≤ c && c ≤ 102 then some (c - 87)
  else if 65 ≤ c && c ≤ 70 then some (c - 55)
  else none

/-- Helper for parseIntHex. -/
def parseIntHexAux : Nat → List Nat → Nat
  | acc, [] => acc
  | acc, c :: cs =>
    match hexDigitVal c with
    | some v => parseIntHexAux (acc * 16 + v) cs
    | none => acc

/-- parseInt(s, 16): value of the longest hexadecimal prefix (the digests
fed to it are hexadecimal; an input with no hexadecimal prefix, where
JavaScript yields NaN, is modelled as 0 — no claim depends on it). -/
def parseIntHex (l : List Nat) : Nat := parseIntHexAux 0 l

/-- ^\d{6}$ . -/
def isPin6 (l : List Nat) : Bool := l.length = 6 && l.all isDigitCode

namespace AddressValidationService

/-- A geocoding outcome: coordinates, confidence and provider label. -/
structure GeoResult where
  latitude : ℚ
  longitude : ℚ
  confidence : ℚ
  provider : List Nat
deriving DecidableEq, Repr

/-- Rounding to k decimal places (toFixed(k) then parseFloat). -/
def roundTo (k : Nat) (q : ℚ) : ℚ :=
  (⌊q * (10 ^ k : ℕ) + 1 / 2⌋ : ℚ) / (10 ^ k : ℕ)

/-- geocodeAddress. The two network providers are external collaborators:
their (in-India, validated) response is injected as providerResult; none
means both providers failed or were unconfigured, in which case the
deterministic fallback runs: coordinates seeded from the address digest,
confidence 0.6, raised to 0.7 for a string of at least 3 comma parts,
plus 0.1 (capped at 0.75) for a 6-character pin code. -/
def geocodeAddress (H : List Nat → List Nat) (providerResult : Option GeoResult)
    (normalizedAddress : List Nat) (pinCode : List Nat) : GeoResult :=
  match providerResult with
  | some g => g
  | none =>
    let hash := generateAddressHash H normalizedAddress
    let seed := parseIntHex (hash.take 8)
    let latitude : ℚ := 65 / 10 + (seed % 1000000 : ℕ) / 1000000 * (371 / 10 - 65 / 10)
    let longitude : ℚ :=
      681 / 10 + (seed * 7 % 1000000 : ℕ) / 1000000 * (974 / 10 - 681 / 10)
    let confidence : ℚ :=
      if 3 ≤ (splitChar 44 normalizedAddress).length ∧ 44 ∈ normalizedAddress
      then 7 / 10 else 6 / 10
    let confidence :=
      if pinCode.length = 6 ∧ pinCode ≠ []
      then qmin (confidence + 1 / 10) (75 / 100) else confidence
    { latitude := roundTo 8 latitude, longitude := roundTo 8 longitude,
      confidence := round2 confidence, provider := codes "fallback" }

/-- calculateQualityScore: component completeness (40 points), comma-part
richness of the normalized string (20), geocode confidence (30, skipped
when the confidence is 0, which is falsy), pin format (10); the sum over
the 100-point maximum is capped at 1 and rounded to two decimals. -/
def calculateQualityScore (c : AddressComponents) (normalizedAddress : List Nat)
    (geo : GeoResult) : ℚ :=
  let completeness : ℚ :=
    (if c.house_number ≠ [] then 5 else 0) + (if c.street ≠ [] then 10 else 0) +
    (if c.village_city ≠ [] then 10 else 0) + (if c.district ≠ [] then 5 else 0) +
    (if c.state ≠ [] then 5 else 0) +
    (if c.pin_code ≠ [] ∧ c.pin_code.length = 6 then 5 else 0)
  let parts := (splitChar 44 normalizedAddress).filter (fun p => trimJs p ≠ [])
  let richness : ℚ := (if 3 ≤ parts.length then 10 else 0) +
    (if 4 ≤ parts.length then 5 else 0) + (if 5 ≤ parts.length then 5 else 0)
  let geoPart : ℚ := if geo.confidence ≠ 0 then geo.confidence * 30 else 0
  let pinPart : ℚ :=
    if c.pin_code ≠ [] ∧ isPin6 (trimJs c.pin_code) then 10 else 0
  round2 (qmin ((completeness + richness + geoPart + pinPart) / 100) 1)

/-- Outcome of validatePinCodeMapping: the mock accepts exactly a
6-digit pin (tested untrimmed). -/
structure PinValidation where
  valid : Bool
  reason : Option (List Nat)
deriving DecidableEq, Repr

/-- validatePinCodeMapping. -/
def validatePinCodeMapping (pinCode : List Nat) : PinValidation :=
  if pinCode = [] ∨ ¬isPin6 pinCode then
    { valid := false, reason := some (codes "Invalid PIN code format") }
  else { valid := true, reason := none }

/-- The record returned by validateAddress. -/
structure AddressValidation where
  valid : Bool
  normalized : List Nat
  normalizedComponents : AddressComponents
  addressHash : List Nat
  geocode : GeoResult
  qualityScore : ℚ
  validationResult : VResult
  flags : List (List Nat)
  pinValidation : PinValidation
deriving DecidableEq, Repr

/-- The result-classification block of validateAddress (step 7): the
score thresholds set passed/flagged/rejected with their flag reasons,
after which a failed pin validation or a geocode confidence below 0.5
overwrites the result with flagged and appends its reason. -/
def classify (qualityScore : ℚ) (pinValid : Bool) (confidence : ℚ) :
    VResult × List (List Nat) :=
  let vr1 : VResult × List (List Nat) :=
    if qualityScore < 1 / 2 then (.rejected, [codes "low_quality_score"])
    else if qualityScore < 3 / 4 then (.flagged, [codes "medium_quality_score"])
    else (.passed, [])
  let vr2 : VResult × List (List Nat) :=
    if !pinValid then (.flagged, vr1.2 ++ [codes "pin_mismatch"]) else vr1
  if confidence < 1 / 2 then
    (.flagged, vr2.2 ++ [codes "low_geocode_confidence"]) else vr2

/-- The geocode result validateAddress works with: the cached entry when
present, the geocoder otherwise. -/
def chosenGeocode (H : List Nat → List Nat) (cached : Option GeoResult)
    (providerResult : Option GeoResult) (c : AddressComponents) : GeoResult :=
  match cached with
  | some g => g
  | none =>
    geocodeAddress H providerResult (normalizeAddress c).normalizedString
      c.pin_code

/-- validateAddress: normalize, hash, geocode (a fresh cache entry is
injected as cached; the cache write does not affect the returned record
and is omitted), validate the pin mapping, score, then classify. -/
def validateAddress (H : List Nat → List Nat) (cached : Option GeoResult)
    (providerResult : Option GeoResult) (c : AddressComponents) :
    AddressValidation :=
  let normalized := normalizeAddress c
  let geocodeResult := chosenGeocode H cached providerResult c
  let pinValidation := validatePinCodeMapping c.pin_code
  let qualityScore := calculateQualityScore c normalized.normalizedString geocodeResult
  { valid := (classify qualityScore pinValidation.valid
      geocodeResult.confidence).1 = .passed
    normalized := normalized.normalizedString
    normalizedComponents := normalized.components
    addressHash := generateAddressHash H normalized.normalizedString
    geocode := geocodeResult
    qualityScore := qualityScore
    validationResult := (classify qualityScore pinValidation.valid
      geocodeResult.confidence).1
    flags := (classify qualityScore pinValidation.valid
      geocodeResult.confidence).2
    pinValidation := pinValidation }

end AddressValidationService

/-- registration_status values written by the services. -/
inductive RegStatus where
  | active
  | pending_review
  | rejected
deriving DecidableEq, Repr

/-- A voter row, restricted to the columns the verified services read or
write. -/
structure Voter where
  voter_id : Nat
  is_active : Bool
  registration_status : RegStatus
  review_reason : Option (List Nat)
deriving DecidableEq, Repr

/-- revision_flags.flag_type. -/
inductive FlagType where
  | duplicate
  | deceased
  | address_mismatch
  | document_expired
  | other
deriving DecidableEq, Repr

/-- revision_flags.status. -/
inductive FlagStatus where
  | pending
  | applied
  | rejected
  | resolved
deriving DecidableEq, Repr

/-- revision_batches.status. -/
inductive BatchStatus where
  | draft
  | committed
  | cancelled
deriving DecidableEq, Repr

/-- A revision_flags row. -/
structure RevisionFlag where
  flag_id : Nat
  batch_id : Nat
  voter_id : Nat
  flag_type : FlagType
  status : FlagStatus
deriving DecidableEq, Repr

/-- A revision_batches row. -/
structure RevisionBatch where
  batch_id : Nat
  status : BatchStatus
deriving DecidableEq, Repr

/-- review_tasks.status (opened models the stored value open, a reserved
word here). -/
inductive TaskStatus where
  | opened
  | in_progress
  | resolved
  | rejected
  | escalated
  | needs_more_info
deriving DecidableEq, Repr

/-- Resolution actions accepted by resolveTask. -/
inductive ResolutionAction where
  | approved
  | rejected
  | escalated
  | needs_more_info
deriving DecidableEq, Repr

/-- A review_tasks row, restricted to the columns the services touch. -/
structure ReviewTask where
  task_id : Nat
  voter_id : Option Nat
  status : TaskStatus
  assigned_to : Option (List Nat)
  assigned_role : Option (List Nat)
  resolution_action : Option ResolutionAction
  resolution_notes : Option (List Nat)
  resolved_by : Option (List Nat)
deriving DecidableEq, Repr

/-- The relational store as seen by the revision batch and review task
services. -/
structure DBState where
  voters : List Voter
  revision_flags : List RevisionFlag
  revision_batches : List RevisionBatch
  review_tasks : List ReviewTask
deriving DecidableEq, Repr

/-- Errors surfaced by the transactional services. -/
inductive DBError where
  | batchNotFound
  | invalidBatchStatus (s : BatchStatus)
  | queryFailure
deriving DecidableEq, Repr

namespace RevisionBatchService

/-- SELECT * FROM revision_batches WHERE batch_id = ?, taking the first
row as the source does. -/
def findBatch (batches : List RevisionBatch) (batchId : Nat) :
    Option RevisionBatch :=
  (batches.filter (fun b => b.batch_id = batchId)).head?

/-- SELECT * FROM revision_flags WHERE batch_id = ? AND status = pending. -/
def pendingFlags (flags : List RevisionFlag) (batchId : Nat) :
    List RevisionFlag :=
  flags.filter (fun f => f.batch_id = batchId ∧ f.status = .pending)

/-- The per-flag loop body of commitBatch: a deceased flag deactivates the
referenced voter, and every processed flag is marked applied (the status
update is outside the type test in the source). The failAt oracle injects
a thrown query at the i-th processed flag, modelling a mid-transaction
failure. -/
def applyFlags (failAt : Option Nat) :
    List RevisionFlag → Nat → DBState → Except DBError DBState
  | [], _, st => .ok st
  | f :: rest, i, st =>
    if failAt = some i then .error .queryFailure
    else
      let st1 :=
        if f.flag_type = .deceased then
          { st with voters := st.voters.map (fun v =>
              if v.voter_id = f.voter_id then { v with is_active := false } else v) }
        else st
      let st2 :=
        { st1 with revision_flags := st1.revision_flags.map (fun g =>
            if g.flag_id = f.flag_id then { g with status := .applied } else g) }
      applyFlags failAt rest (i + 1) st2

/-- The record returned by commitBatch. -/
structure CommitResult where
  batch_id : Nat
  flags_applied : Nat
  status : BatchStatus
deriving DecidableEq, Repr

/-- The transaction body of commitBatch: look up the batch, require draft
status, process every pending flag of the batch, then set the batch
committed. -/
def commitBatchTx (failAt : Option Nat) (st : DBState) (batchId : Nat) :
    Except DBError (CommitResult × DBState) :=
  match findBatch st.revision_batches batchId with
  | none => .error .batchNotFound
  | some batch =>
    if batch.status = .draft then
      let flags := pendingFlags st.revision_flags batchId
      match applyFlags failAt flags 0 st with
      | .error e => .error e
      | .ok st2 =>
        let st3 :=
          { st2 with revision_batches := st2.revision_batches.map (fun b =>
              if b.batch_id = batchId then { b with status := .committed } else b) }
        .ok ({ batch_id := batchId, flags_applied := flags.length,
               status := .committed }, st3)
    else .error (.invalidBatchStatus batch.status)

/-- commitBatch: run the transaction body; an error rolls the connection
back, so the caller observes the pre-transaction state unchanged. -/
def commitBatch (failAt : Option Nat) (st : DBState) (batchId : Nat) :
    Except DBError CommitResult × DBState :=
  match commitBatchTx failAt st batchId with
  | .ok (r, st2) => (.ok r, st2)
  | .error e => (.error e, st)

end RevisionBatchService

namespace ReviewTaskService

/-- assignTask: unconditionally set assignee, role and in_progress status
on the matching row (no check of the current status). -/
def assignTask (st : DBState) (taskId : Nat) (assignedTo assignedRole : List Nat) :
    DBState :=
  { st with review_tasks := st.review_tasks.map (fun t =>
      if t.task_id = taskId then
        { t with assigned_to := some assignedTo,
                 assigned_role := some assignedRole, status := .in_progress }
      else t) }

/-- resolveTask: unconditionally overwrite the task row with resolved
status and the resolution fields, re-read the row, and, when it
references a voter, apply the approved/rejected side effect to the voter
in the same transaction. -/
def resolveTask (st : DBState) (taskId : Nat) (resolvedBy : List Nat)
    (action : ResolutionAction) (notes : Option (List Nat)) : DBState :=
  let tasks2 := st.review_tasks.map (fun t =>
    if t.task_id = taskId then
      { t with status := .resolved, resolution_action := some action,
               resolution_notes := notes, resolved_by := some resolvedBy }
    else t)
  let task? := (tasks2.filter (fun t => t.task_id = taskId)).head?
  match task? with
  | some t =>
    match t.voter_id with
    | some vid =>
      if action = .approved then
        { st with review_tasks := tasks2,
                  voters := st.voters.map (fun v =>
                    if v.voter_id = vid then
                      { v with registration_status := .active } else v) }
      else if action = .rejected then
        let reason := match notes with
          | some l => if l = [] then codes "Rejected by reviewer" else l
          | none => codes "Rejected by reviewer"
        { st with review_tasks := tasks2,
                  voters := st.voters.map (fun v =>
                    if v.voter_id = vid then
                      { v with registration_status := .rejected,
                               review_reason := some reason } else v) }
      else { st with review_tasks := tasks2 }
    | none => { st with review_tasks := tasks2 }
  | none => { st with review_tasks := tasks2 }

end ReviewTaskService

/-- Decimal digit string of a number, as code points (template-literal
interpolation of a non-negative integer). -/
def natCodes (n : Nat) : List Nat := (Nat.toDigits 10 n).map Char.toNat

namespace OpenaiController

/-- An audit_logs row (the columns the verifier selects); previous_hash
is nullable. -/
structure AuditLog where
  log_id : Nat
  action : List Nat
  details : List Nat
  timestamp : Nat
  previous_hash : Option (List Nat)
deriving DecidableEq, Repr

/-- A hash_chain_verification row written by the verifier. -/
structure HashBlock where
  block_id : Nat
  previous_hash : Option (List Nat)
  current_hash : Option (List Nat)
  computed_hash : List Nat
  is_valid : Bool
  verified_by : List Nat
deriving DecidableEq, Repr

/-- The audit store: the append-only log (held in timestamp order, the
order the verifier selects) and the verification blocks. -/
structure AuditState where
  audit_logs : List AuditLog
  blocks : List HashBlock
deriving DecidableEq, Repr

/-- The string hashed for a log entry: log_id, action and details
concatenated with the running previous hash (empty for null). -/
def hashInput (log : AuditLog) (prev : Option (List Nat)) : List Nat :=
  natCodes log.log_id ++ log.action ++ log.details ++ prev.getD []

/-- The record returned by verifyHashChain. -/
structure VerifyResult where
  total_blocks : Nat
  invalid_blocks : Nat
  chain_health : List Nat
deriving DecidableEq, Repr

/-- One iteration of the verification loop: recompute the hash over the
entry and the running hash, compare the entry's stored previous_hash with
the running hash, record a block, and advance the running hash. -/
def verifyStep (H : List Nat → List Nat) (verifiedBy : List Nat)
    (acc : Option (List Nat) × Nat × List HashBlock) (log : AuditLog) :
    Option (List Nat) × Nat × List HashBlock :=
  let currentHash := H (hashInput log acc.1)
  let isValid := log.previous_hash = acc.1
  (some currentHash,
   acc.2.1 + (if isValid then 0 else 1),
   acc.2.2 ++ [{ block_id := log.log_id, previous_hash := acc.1,
                 current_hash := log.previous_hash,
                 computed_hash := currentHash, is_valid := isValid,
                 verified_by := verifiedBy }])

/-- verifyHashChain: fold the verification loop over the log in stored
(timestamp) order, append the produced blocks, and report healthy exactly
when no block was invalid. The audit log itself is only read. -/
def verifyHashChain (H : List Nat → List Nat) (verifiedBy : List Nat)
    (st : AuditState) : VerifyResult × AuditState :=
  ({ total_blocks := st.audit_logs.length
     invalid_blocks :=
       (st.audit_logs.foldl (verifyStep H verifiedBy) (none, 0, [])).2.1
     chain_health :=
       if (st.audit_logs.foldl (verifyStep H verifiedBy) (none, 0, [])).2.1 = 0
       then codes "healthy" else codes "compromised" },
   { st with blocks := st.blocks ++
       (st.audit_logs.foldl (verifyStep H verifiedBy) (none, 0, [])).2.2 })

/-- Content of an audit entry before chaining. -/
structure EntryData where
  log_id : Nat
  action : List Nat
  details : List Nat
  timestamp : Nat
deriving DecidableEq, Repr

/-- The stored row for an entry whose predecessor hash is prev. -/
def mkLog (e : EntryData) (prev : Option (List Nat)) : AuditLog :=
  { log_id := e.log_id, action := e.action, details := e.details,
    timestamp := e.timestamp, previous_hash := prev }

/-- Modelled from the spec: the audit log writer itself is not under
src (only the verifier is); per the spec the log is append-only with
each entry referencing the previous entry's hash, so entry i stores as
previous_hash exactly the running hash the verifier recomputes over
entries 0..i-1. -/
def mkChain (H : List Nat → List Nat) :
    Option (List Nat) → List EntryData → List AuditLog
  | _, [] => []
  | prev, e :: rest =>
    mkLog e prev :: mkChain H (some (H (hashInput (mkLog e prev) prev))) rest

/-- The running hash after writing a list of entries on top of prev. -/
def chainHash (H : List Nat → List Nat) :
    Option (List Nat) → List EntryData → Option (List Nat)
  | prev, [] => prev
  | prev, e :: rest =>
    chainHash H (some (H (hashInput (mkLog e prev) prev))) rest

end OpenaiController

namespace AnomalyDetection

/-- A voters row as read by the cluster query (one address group's
member): name, nullable date of birth, creation timestamp in
milliseconds. -/
structure VoterReg where
  voter_id : Nat
  name : List Nat
  dob : Option (List Nat)
  created_at : Nat
deriving DecidableEq, Repr

/-- The per-address aggregate row produced by the GROUP BY query: note
that names and dobs come from GROUP_CONCAT(DISTINCT ...), so duplicate
values within the group are collapsed before the risk computation sees
them. -/
structure ClusterRow where
  voter_count : Nat
  names : List (List Nat)
  dobs : List (List Nat)
  first_registration : Nat
  last_registration : Nat
deriving DecidableEq, Repr

/-- Build the aggregate row from the group's voter rows (COUNT(DISTINCT
voter_id); GROUP_CONCAT(DISTINCT ...) drops nulls and duplicates). -/
def clusterRow (voters : List VoterReg) : ClusterRow :=
  { voter_count := ((voters.map (·.voter_id)).dedup).length
    names := ((voters.map (·.name)).dedup)
    dobs := ((voters.filterMap (·.dob)).dedup)
    first_registration := ((voters.map (·.created_at)).foldr min
      ((voters.map (·.created_at)).headI))
    last_registration := ((voters.map (·.created_at)).foldr max 0) }

/-- The count thresholds parameter of detectAddressClusters. -/
structure Thresholds where
  low : Nat
  medium : Nat
  high : Nat
deriving DecidableEq, Repr

/-- risk_level values. -/
inductive RiskLevel where
  | low
  | medium
  | high
  | critical
deriving DecidableEq, Repr

/-- The surname a name contributes to the diversity set: the last
whitespace token of the trimmed name, lower-cased (an all-whitespace name
contributes the empty string, as the JavaScript split produces one empty
token there). -/
def surnameOf (name : List Nat) : List Nat :=
  match (splitWs (trimJs name)).getLast? with
  | some t => mapLower t
  | none => []

/-- The risk computation of detectAddressClusters for one aggregate row:
base risk from the count tier, surname-diversity penalty, date-of-birth
clustering penalty, and registration-velocity penalty, with the score
capped at 1. -/
def computeRisk (th : Thresholds) (row : ClusterRow) : ℚ × RiskLevel :=
  let base : ℚ × RiskLevel :=
    if th.high ≤ row.voter_count then (5 / 10, .high)
    else if th.medium ≤ row.voter_count then (3 / 10, .medium)
    else (1 / 10, .low)
  let surnames := ((row.names.map surnameOf).dedup).length
  let surnameDiversityScore : ℚ :=
    qmin ((surnames : ℚ) / (max row.voter_count 1 : ℕ)) 1
  let s1 : ℚ × RiskLevel :=
    if surnameDiversityScore < 3 / 10 then
      (base.1 + 2 / 10, if base.2 = .low then .medium else base.2)
    else base
  let maxDobCount :=
    (row.dobs.map (fun d => row.dobs.count d)).foldl max 0
  let dobClusteringScore : ℚ :=
    1 - (maxDobCount : ℚ) / (row.voter_count : ℚ)
  let s2 : ℚ × RiskLevel :=
    if dobClusteringScore < 1 / 2 then
      let lvl := if s1.2 = .low then .medium else s1.2
      let lvl := if lvl = .medium then .high else lvl
      (s1.1 + 2 / 10, lvl)
    else s1
  let timeSpanDays : ℚ :=
    ((row.last_registration : ℚ) - (row.first_registration : ℚ)) / 86400000
  let s3 : ℚ × RiskLevel :=
    if 10 < row.voter_count ∧ timeSpanDays < 7 then
      (s2.1 + 2 / 10,
       if s2.2 ≠ .high then (if s2.2 = .low then .medium else .high) else s2.2)
    else s2
  (qmin s3.1 1, s3.2)

/-- The risk score and level detectAddressClusters assigns to one
qualifying address group. -/
def clusterRisk (th : Thresholds) (voters : List VoterReg) : ℚ × RiskLevel :=
  computeRisk th (clusterRow voters)

end AnomalyDetection

namespace RevisionBatchService

theorem applyFlags_fail (k : Nat) :
    ∀ (l : List RevisionFlag) (i : Nat) (st : DBState), i ≤ k → k < i + l.length →
      applyFlags (some k) l i st = .error .queryFailure := by
  intro l
  induction l with
  | nil => intro i st h1 h2; simp at h2; omega
  | cons f rest ih =>
    intro i st h1 h2
    unfold applyFlags
    by_cases hik : k = i
    · simp [hik]
    · simp only [List.length_cons] at h2
      simp only [Option.some.injEq, hik, if_false]
      exact ih (i + 1) _ (by omega) (by omega)

/-- Deactivate the voters whose id occurs in ids (the accumulated effect
of the deceased-flag updates). -/
def deactivateFor (ids : List Nat) (vs : List Voter) : List Voter :=
  vs.map (fun v => if v.voter_id ∈ ids then { v with is_active := false } else v)

/-- Mark the flags whose id occurs in ids applied (the accumulated effect
of the per-flag status updates). -/
def applyFor (ids : List Nat) (fs : List RevisionFlag) : List RevisionFlag :=
  fs.map (fun g => if g.flag_id ∈ ids then { g with status := .applied } else g)

theorem deactivateFor_cons (ids : List Nat) (vid : Nat) (vs : List Voter) :
    deactivateFor ids (vs.map (fun v =>
      if v.voter_id = vid then { v with is_active := false } else v)) =
    deactivateFor (vid :: ids) vs := by
  unfold deactivateFor
  rw [List.map_map]
  apply List.map_congr_left
  intro v _
  by_cases h : v.voter_id = vid <;> by_cases h2 : v.voter_id ∈ ids <;>
    simp [Function.comp, h, h2]

theorem applyFor_cons (ids : List Nat) (fid : Nat) (fs : List RevisionFlag) :
    applyFor ids (fs.map (fun g =>
      if g.flag_id = fid then { g with status := .applied } else g)) =
    applyFor (fid :: ids) fs := by
  unfold applyFor
  rw [List.map_map]
  apply List.map_congr_left
  intro g _
  by_cases h : g.flag_id = fid <;> by_cases h2 : g.flag_id ∈ ids <;>
    simp [Function.comp, h, h2]

theorem applyFlags_none_ok : ∀ (l : List RevisionFlag) (i : Nat) (st : DBState),
    applyFlags none l i st = .ok
      { st with
          voters := deactivateFor
            ((l.filter (fun f => f.flag_type = .deceased)).map (·.voter_id)) st.voters
          revision_flags := applyFor (l.map (·.flag_id)) st.revision_flags } := by
  intro l
  induction l with
  | nil =>
    intro i st
    simp [applyFlags, deactivateFor, applyFor]
  | cons f rest ih =>
    intro i st
    unfold applyFlags
    simp only [reduceCtorEq, if_false]
    rw [ih]
    by_cases hdec : f.flag_type = .deceased
    · simp only [hdec, if_true, List.filter_cons, List.map_cons]
      congr 1
      simp only [hdec, decide_eq_true_eq, if_true, List.map_cons]
      rw [deactivateFor_cons, applyFor_cons]
    · simp only [hdec, if_false, List.filter_cons, List.map_cons]
      congr 1
      simp only [hdec, decide_eq_true_eq, if_false]
      rw [applyFor_cons]

theorem applyFor_pending_eq (F : List RevisionFlag) (batchId : Nat)
    (hnodup : (F.map (·.flag_id)).Nodup) :
    applyFor ((pendingFlags F batchId).map (·.flag_id)) F =
    F.map (fun f => if f.batch_id = batchId ∧ f.status = .pending then
      { f with status := .applied } else f) := by
  unfold applyFor
  apply List.map_congr_left
  intro g hg
  by_cases hp : g.batch_id = batchId ∧ g.status = .pending
  · have hmem : g.flag_id ∈ (pendingFlags F batchId).map (·.flag_id) := by
      apply List.mem_map_of_mem
      unfold pendingFlags
      rw [List.mem_filter]
      exact ⟨hg, by simp [hp.1, hp.2]⟩
    simp [hmem, hp]
  · have hnot : g.flag_id ∉ (pendingFlags F batchId).map (·.flag_id) := by
      intro hmem
      obtain ⟨f, hf, hfid⟩ := List.mem_map.mp hmem
      have hfF : f ∈ F := List.mem_of_mem_filter hf
      have heq : f = g := List.inj_on_of_nodup_map hnodup hfF hg hfid
      have hfprop := (List.mem_filter.mp hf).2
      rw [heq] at hfprop
      simp at hfprop
      exact hp hfprop
    simp [hnot, hp]

/-- C4. For every batch whose status is not draft, commitBatch returns an
invalid-state-transition error and leaves the entire store unchanged. -/
theorem commitBatch_non_draft_rejected (st : DBState) (batchId : Nat)
    (b : RevisionBatch) (hfind : findBatch st.revision_batches batchId = some b)
    (hstatus : b.status ≠ .draft) :
    commitBatch none st batchId = (.error (.invalidBatchStatus b.status), st) := by
  unfold commitBatch commitBatchTx
  rw [hfind]
  simp [hstatus]

/-- Store with one already-committed batch, one pending flag and one
active voter, used to instantiate the commit theorems. -/
def committedOnlyState : DBState :=
  { voters := [{ voter_id := 3, is_active := true,
                 registration_status := .active, review_reason := none }]
    revision_flags := [{ flag_id := 1, batch_id := 7, voter_id := 3,
                         flag_type := .deceased, status := .pending }]
    revision_batches := [{ batch_id := 7, status := .committed }]
    review_tasks := [] }

/-- Witness for C4 at a concrete committed batch. -/
theorem commitBatch_non_draft_rejected_witness :
    commitBatch none committedOnlyState 7 =
      (.error (.invalidBatchStatus .committed), committedOnlyState) :=
  commitBatch_non_draft_rejected committedOnlyState 7
    { batch_id := 7, status := .committed } (by decide) (by decide)

/-- C3. If the store throws while commitBatch is processing the k-th
pending flag of a draft batch, the whole transaction rolls back: the
caller receives an error and the store (voters, flags, batches) is
exactly the pre-commit state. -/
theorem commitBatch_failure_rolls_back (st : DBState) (batchId k : Nat)
    (b : RevisionBatch) (hfind : findBatch st.revision_batches batchId = some b)
    (hdraft : b.status = .draft)
    (hk : k < (pendingFlags st.revision_flags batchId).length) :
    commitBatch (some k) st batchId = (.error .queryFailure, st) := by
  unfold commitBatch commitBatchTx
  rw [hfind]
  simp only [hdraft, if_true]
  rw [applyFlags_fail k _ 0 st (Nat.zero_le k) (by omega)]

/-- Store with a draft batch of five deceased flags over five active
voters, used to instantiate the rollback theorem at its third flag. -/
def draftFiveState : DBState :=
  { voters := (List.range 5).map (fun i =>
      { voter_id := i + 1, is_active := true,
        registration_status := .active, review_reason := none })
    revision_flags := (List.range 5).map (fun i =>
      { flag_id := i + 1, batch_id := 1, voter_id := i + 1,
        flag_type := .deceased, status := .pending })
    revision_batches := [{ batch_id := 1, status := .draft }]
    review_tasks := [] }

/-- Witness for C3: failing on the third of five eligible flags rolls
everything back. -/
theorem commitBatch_failure_rolls_back_witness :
    commitBatch (some 2) draftFiveState 1 = (.error .queryFailure, draftFiveState) :=
  commitBatch_failure_rolls_back draftFiveState 1 2
    { batch_id := 1, status := .draft } (by decide) (by decide) (by decide)

/-- C1 counterexample. A draft batch with one pending duplicate flag:
after commitBatch, that flag's status is applied, not pending — the
status update in the loop is unconditional, only the voter deactivation
is gated on the deceased type (the duplicate's voter stays active). -/
theorem commitBatch_marks_duplicate_applied :
    ((commitBatch none
        { voters := [{ voter_id := 1, is_active := true,
                       registration_status := .active, review_reason := none }]
          revision_flags := [{ flag_id := 1, batch_id := 1, voter_id := 1,
                               flag_type := .duplicate, status := .pending }]
          revision_batches := [{ batch_id := 1, status := .draft }]
          review_tasks := [] } 1).2.revision_flags.map (·.status) = [.applied]) ∧
    ((commitBatch none
        { voters := [{ voter_id := 1, is_active := true,
                       registration_status := .active, review_reason := none }]
          revision_flags := [{ flag_id := 1, batch_id := 1, voter_id := 1,
                               flag_type := .duplicate, status := .pending }]
          revision_batches := [{ batch_id := 1, status := .draft }]
          review_tasks := [] } 1).2.voters.map (·.is_active) = [true]) := by
  decide

/-- C1 (amended). Committing a draft batch, in one transaction: each
voter referenced by a pending deceased flag of the batch is deactivated
(only the deceased type has a voter side effect), every pending flag of
the batch — of any type, duplicates included — is marked applied, the
batch becomes committed, and the result reports the processed-flag count.
Flag ids are assumed unique, as for a primary-key column. -/
theorem commitBatch_draft_applies_all_pending (st : DBState) (batchId : Nat)
    (b : RevisionBatch) (hfind : findBatch st.revision_batches batchId = some b)
    (hdraft : b.status = .draft)
    (hnodup : (st.revision_flags.map (·.flag_id)).Nodup) :
    commitBatch none st batchId =
      (.ok { batch_id := batchId,
             flags_applied := (pendingFlags st.revision_flags batchId).length,
             status := .committed },
       { st with
           voters := st.voters.map (fun v =>
             if v.voter_id ∈ ((pendingFlags st.revision_flags batchId).filter
                 (fun f => f.flag_type = .deceased)).map (·.voter_id)
             then { v with is_active := false } else v)
           revision_flags := st.revision_flags.map (fun f =>
             if f.batch_id = batchId ∧ f.status = .pending then
               { f with status := .applied } else f)
           revision_batches := st.revision_batches.map (fun bb =>
             if bb.batch_id = batchId then { bb with status := .committed }
             else bb) }) := by
  unfold commitBatch commitBatchTx
  rw [hfind]
  simp only [hdraft, if_true]
  rw [applyFlags_none_ok]
  rw [applyFor_pending_eq st.revision_flags batchId hnodup]
  rfl

/-- Store with a draft batch holding one pending deceased flag and one
pending duplicate flag. -/
def mixedDraftState : DBState :=
  { voters := [{ voter_id := 1, is_active := true,
                 registration_status := .active, review_reason := none },
               { voter_id := 2, is_active := true,
                 registration_status := .active, review_reason := none }]
    revision_flags := [{ flag_id := 1, batch_id := 1, voter_id := 1,
                         flag_type := .deceased, status := .pending },
                       { flag_id := 2, batch_id := 1, voter_id := 2,
                         flag_type := .duplicate, status := .pending }]
    revision_batches := [{ batch_id := 1, status := .draft }]
    review_tasks := [] }

/-- Witness for the amended C1 on a mixed draft batch. -/
theorem commitBatch_draft_applies_all_pending_witness :
    commitBatch none mixedDraftState 1 =
      (.ok { batch_id := 1, flags_applied := 2, status := .committed },
       { voters := [{ voter_id := 1, is_active := false,
                      registration_status := .active, review_reason := none },
                    { voter_id := 2, is_active := true,
                      registration_status := .active, review_reason := none }]
         revision_flags := [{ flag_id := 1, batch_id := 1, voter_id := 1,
                              flag_type := .deceased, status := .applied },
                            { flag_id := 2, batch_id := 1, voter_id := 2,
                              flag_type := .duplicate, status := .applied }]
         revision_batches := [{ batch_id := 1, status := .committed }]
         review_tasks := [] }) := by
  rw [commitBatch_draft_applies_all_pending mixedDraftState 1
    { batch_id := 1, status := .draft } (by decide) (by decide) (by decide)]
  rfl

end RevisionBatchService

namespace ReviewTaskService

/-- Store with one already-resolved (approved) review task referencing an
active voter. -/
def resolvedTaskState : DBState :=
  { voters := [{ voter_id := 1, is_active := true,
                 registration_status := .active, review_reason := none }]
    revision_flags := []
    revision_batches := []
    review_tasks := [{ task_id := 1, voter_id := some 1, status := .resolved,
                       assigned_to := none, assigned_role := none,
                       resolution_action := some .approved,
                       resolution_notes := none,
                       resolved_by := some (codes "admin") }] }

/-- C5 counterexample. Resolving the already-resolved task 1 again with
action rejected is not refused: it overwrites the resolution fields and
flips the referenced voter to rejected; and assignTask moves the resolved
task back to in_progress — the resolved state is not terminal and neither
operation checks the current status. -/
theorem resolveTask_resolved_not_rejected :
    (((resolveTask resolvedTaskState 1 (codes "officer") .rejected none)
        |>.voters.map (·.registration_status)) = [.rejected]) ∧
    (((resolveTask resolvedTaskState 1 (codes "officer") .rejected none)
        |>.review_tasks.map (·.resolution_action)) = [some .rejected]) ∧
    (((assignTask resolvedTaskState 1 (codes "officer") (codes "ero"))
        |>.review_tasks.map (·.status)) = [.in_progress]) := by
  decide

/-- C5 (amended). Neither resolveTask nor assignTask validates the
task's current state: for a task that is already resolved, resolveTask
overwrites its resolution fields (leaving it resolved with the new
action and resolver), and assignTask moves it to in_progress, so the
resolved state is not terminal. -/
theorem resolveTask_review_tasks (st : DBState) (tid : Nat) (rb : List Nat)
    (act : ResolutionAction) (notes : Option (List Nat)) :
    (resolveTask st tid rb act notes).review_tasks =
      st.review_tasks.map (fun u => if u.task_id = tid then
        { u with status := .resolved, resolution_action := some act,
                 resolution_notes := notes, resolved_by := some rb } else u) := by
  simp only [resolveTask]
  repeat' split
  all_goals rfl

theorem resolveTask_overwrites_resolved (st : DBState) (tid : Nat)
    (t : ReviewTask) (ht : t ∈ st.review_tasks) (hid : t.task_id = tid)
    (hres : t.status = .resolved) (a r rb : List Nat)
    (act : ResolutionAction) (notes : Option (List Nat)) :
    (∃ t1 ∈ (assignTask st tid a r).review_tasks,
       t1.task_id = tid ∧ t1.status = .in_progress) ∧
    (∃ t2 ∈ (resolveTask st tid rb act notes).review_tasks,
       t2.task_id = tid ∧ t2.status = .resolved ∧
       t2.resolution_action = some act ∧ t2.resolved_by = some rb) := by
  have hmem1 := List.mem_map_of_mem (fun u : ReviewTask =>
    if u.task_id = tid then
      { u with assigned_to := some a, assigned_role := some r,
               status := TaskStatus.in_progress }
    else u) ht
  have hmem2 := List.mem_map_of_mem (fun u : ReviewTask =>
    if u.task_id = tid then
      { u with status := TaskStatus.resolved, resolution_action := some act,
               resolution_notes := notes, resolved_by := some rb }
    else u) ht
  refine ⟨⟨_, hmem1, by simp [hid], by simp [hid]⟩, ?_⟩
  rw [resolveTask_review_tasks]
  exact ⟨_, hmem2, by simp [hid], by simp [hid], by simp [hid], by simp [hid]⟩

/-- Witness for the amended C5 at the concrete resolved task. -/
theorem resolveTask_overwrites_resolved_witness :
    (∃ t1 ∈ (assignTask resolvedTaskState 1 (codes "officer")
        (codes "ero")).review_tasks,
       t1.task_id = 1 ∧ t1.status = .in_progress) ∧
    (∃ t2 ∈ (resolveTask resolvedTaskState 1 (codes "officer") .rejected
        none).review_tasks,
       t2.task_id = 1 ∧ t2.status = .resolved ∧
       t2.resolution_action = some .rejected ∧
       t2.resolved_by = some (codes "officer")) :=
  resolveTask_overwrites_resolved resolvedTaskState 1
    { task_id := 1, voter_id := some 1, status := .resolved,
      assigned_to := none, assigned_role := none,
      resolution_action := some .approved, resolution_notes := none,
      resolved_by := some (codes "admin") }
    (by decide) rfl rfl (codes "officer") (codes "ero") (codes "officer")
    .rejected none

end ReviewTaskService

namespace NameValidationService

theorem soundexLoop_len_le : ∀ (rest acc : List Nat), acc.length ≤ 4 →
    (soundexLoop acc rest).length ≤ 4 := by
  intro rest
  induction rest with
  | nil => intro acc h; simpa [soundexLoop] using h
  | cons c cs ih =>
    intro acc h
    unfold soundexLoop
    by_cases h4 : 4 ≤ acc.length
    · simpa [h4] using h
    · simp only [h4, if_false]
      cases hc : soundexCode c with
      | none => exact ih acc h
      | some d =>
        by_cases hl : acc.getLast? = some d
        · simp only [hl, if_pos]
          exact ih acc h
        · simp only [hl, if_neg, ite_false]
          apply ih
          simp only [List.length_append, List.length_cons, List.length_nil]
          omega

/-- C9. The Soundex-style code maps Robert and Rupert to one shared code,
and for every non-empty all-letter token the returned code has exactly 4
characters. -/
theorem soundex_phonetic_code :
    soundex (codes "Robert") = soundex (codes "Rupert") ∧
    ∀ t : List Nat, t ≠ [] → t.all isLetter = true → (soundex t).length = 4 := by
  constructor
  · decide
  · intro t ht _
    have hm : mapUpper t ≠ [] := by
      simpa [mapUpper] using ht
    unfold soundex
    cases hcase : mapUpper t with
    | nil => exact absurd hcase hm
    | cons c cs =>
      have hlen := soundexLoop_len_le cs [c] (by simp)
      simp only [padEnd4, List.length_append, List.length_replicate]
      omega

/-- Witness for C9 at a concrete token. -/
theorem soundex_phonetic_code_witness :
    codes "Mary" ≠ [] ∧ (soundex (codes "Mary")).length = 4 :=
  ⟨by decide, soundex_phonetic_code.2 (codes "Mary") (by decide) (by decide)⟩

end NameValidationService

namespace OpenaiController

theorem foldl_mkChain (H : List Nat → List Nat) (vb : List Nat) :
    ∀ (entries : List EntryData) (prev : Option (List Nat)) (n : Nat)
      (B : List HashBlock),
      ∃ B2, (mkChain H prev entries).foldl (verifyStep H vb) (prev, n, B) =
        (chainHash H prev entries, n, B2) := by
  intro entries
  induction entries with
  | nil => intro prev n B; exact ⟨B, rfl⟩
  | cons e rest ih =>
    intro prev n B
    rw [mkChain, List.foldl_cons, chainHash]
    have hstep : verifyStep H vb (prev, n, B) (mkLog e prev) =
        (some (H (hashInput (mkLog e prev) prev)), n,
         B ++ [{ block_id := (mkLog e prev).log_id, previous_hash := prev,
                 current_hash := (mkLog e prev).previous_hash,
                 computed_hash := H (hashInput (mkLog e prev) prev),
                 is_valid := true, verified_by := vb }]) := by
      unfold verifyStep
      simp [mkLog]
    rw [hstep]
    exact ih _ n _

theorem foldl_invalid_mono (H : List Nat → List Nat) (vb : List Nat) :
    ∀ (logs : List AuditLog) (acc : Option (List Nat) × Nat × List HashBlock),
      acc.2.1 ≤ (logs.foldl (verifyStep H vb) acc).2.1 := by
  intro logs
  induction logs with
  | nil => intro acc; exact Nat.le_refl _
  | cons log rest ih =>
    intro acc
    rw [List.foldl_cons]
    refine Nat.le_trans ?_ (ih (verifyStep H vb acc log))
    unfold verifyStep
    by_cases h : log.previous_hash = acc.1 <;> simp [h]

/-- C2 (amended). Over an honestly written chain the verifier reports
zero invalid blocks and healthy, and never mutates the audit log; if
exactly one entry's content is tampered and at least one entry follows
it, then — provided the hash of the tampered content differs from the
hash of the original content (no collision) — the verifier reports at
least one invalid block at or after the tampered position, reports
compromised, and again leaves the audit log unchanged. (A content-tamper
of the final entry is not detected; see the counterexample.) -/
theorem verifyHashChain_tamper_detection (H : List Nat → List Nat)
    (vb : List Nat) :
    (∀ (entries : List EntryData) (B : List HashBlock),
       (verifyHashChain H vb
          { audit_logs := mkChain H none entries, blocks := B }).1.invalid_blocks
           = 0 ∧
       (verifyHashChain H vb
          { audit_logs := mkChain H none entries, blocks := B }).1.chain_health
           = codes "healthy" ∧
       (verifyHashChain H vb
          { audit_logs := mkChain H none entries, blocks := B }).2.audit_logs
           = mkChain H none entries) ∧
    (∀ (pre : List EntryData) (e next : EntryData) (rest : List EntryData)
       (act det : List Nat) (B : List HashBlock),
       H (hashInput { mkLog e (chainHash H none pre) with
             action := act, details := det } (chainHash H none pre)) ≠
         H (hashInput (mkLog e (chainHash H none pre)) (chainHash H none pre)) →
       1 ≤ (verifyHashChain H vb
         { audit_logs := mkChain H none pre ++
             { mkLog e (chainHash H none pre) with
               action := act, details := det } ::
             mkChain H (some (H (hashInput (mkLog e (chainHash H none pre))
               (chainHash H none pre)))) (next :: rest),
           blocks := B }).1.invalid_blocks ∧
       (verifyHashChain H vb
         { audit_logs := mkChain H none pre ++
             { mkLog e (chainHash H none pre) with
               action := act, details := det } ::
             mkChain H (some (H (hashInput (mkLog e (chainHash H none pre))
               (chainHash H none pre)))) (next :: rest),
           blocks := B }).1.chain_health = codes "compromised" ∧
       (verifyHashChain H vb
         { audit_logs := mkChain H none pre ++
             { mkLog e (chainHash H none pre) with
               action := act, details := det } ::
             mkChain H (some (H (hashInput (mkLog e (chainHash H none pre))
               (chainHash H none pre)))) (next :: rest),
           blocks := B }).2.audit_logs = mkChain H none pre ++
             { mkLog e (chainHash H none pre) with
               action := act, details := det } ::
             mkChain H (some (H (hashInput (mkLog e (chainHash H none pre))
               (chainHash H none pre)))) (next :: rest)) := by
  constructor
  · intro entries B
    obtain ⟨B2, hfold⟩ := foldl_mkChain H vb entries none 0 []
    refine ⟨?_, ?_, rfl⟩
    · show (List.foldl (verifyStep H vb) (none, 0, [])
        (mkChain H none entries)).2.1 = 0
      rw [hfold]
    · show (if (List.foldl (verifyStep H vb) (none, 0, [])
          (mkChain H none entries)).2.1 = 0
        then codes "healthy" else codes "compromised") = codes "healthy"
      rw [hfold]
      simp
  · intro pre e next rest act det B hneq
    set p := chainHash H none pre with hp
    set olog := mkLog e p with holog
    set tlog : AuditLog := { olog with action := act, details := det } with htlog
    set q := some (H (hashInput olog p)) with hq
    have hinv : 1 ≤ (List.foldl (verifyStep H vb) (none, 0, [])
        (mkChain H none pre ++ tlog :: mkChain H q (next :: rest))).2.1 := by
      rw [List.foldl_append]
      obtain ⟨B2, hfold⟩ := foldl_mkChain H vb pre none 0 []
      rw [hfold, ← hp, List.foldl_cons, mkChain, List.foldl_cons]
      refine Nat.le_trans ?_ (foldl_invalid_mono H vb _ _)
      have h1 : (verifyStep H vb (p, 0, B2) tlog).1 =
          some (H (hashInput tlog p)) := rfl
      have h1c : (verifyStep H vb (p, 0, B2) tlog).2.1 = 0 := by
        unfold verifyStep
        have hop : olog.previous_hash = p := by rw [holog]; rfl
        have hpp : tlog.previous_hash = p := hop
        simp [hpp, hop]
      have hcount : (verifyStep H vb (verifyStep H vb (p, 0, B2) tlog)
          (mkLog next q)).2.1 = (verifyStep H vb (p, 0, B2) tlog).2.1 + 1 := by
        conv in (verifyStep H vb (verifyStep H vb (p, 0, B2) tlog) _) =>
          rw [verifyStep]
        have hval : ¬ ((mkLog next q).previous_hash =
            (verifyStep H vb (p, 0, B2) tlog).1) := by
          rw [h1]
          show ¬ (q = some (H (hashInput tlog p)))
          rw [hq]
          intro hcon
          rw [Option.some_inj] at hcon
          exact hneq hcon.symm
        simp [hval]
      rw [hcount, h1c]
    refine ⟨hinv, ?_, rfl⟩
    show (if (List.foldl (verifyStep H vb) (none, 0, [])
        (mkChain H none pre ++ tlog :: mkChain H q (next :: rest))).2.1 = 0
      then codes "healthy" else codes "compromised") = codes "compromised"
    have hne : (List.foldl (verifyStep H vb) (none, 0, [])
        (mkChain H none pre ++ tlog :: mkChain H q (next :: rest))).2.1 ≠ 0 := by
      omega
    rw [if_neg hne]

/-- A concrete injective stand-in for the digest, used to instantiate the
abstract hash parameter on concrete inputs. -/
def hashStub (l : List Nat) : List Nat := 0 :: l

/-- A concrete audit entry. -/
def auditEntry1 : EntryData :=
  { log_id := 1, action := codes "LOGIN", details := codes "ok",
    timestamp := 100 }

/-- A second concrete audit entry. -/
def auditEntry2 : EntryData :=
  { log_id := 2, action := codes "UPDATE", details := codes "row",
    timestamp := 200 }

/-- Witness for C2: the two-entry honest chain verifies healthy, and
tampering the first entry of a two-entry chain yields an invalid block. -/
theorem verifyHashChain_tamper_detection_witness :
    ((verifyHashChain hashStub (codes "admin")
        { audit_logs := mkChain hashStub none [auditEntry1, auditEntry2],
          blocks := [] }).1.invalid_blocks = 0) ∧
    (1 ≤ (verifyHashChain hashStub (codes "admin")
        { audit_logs := mkChain hashStub none [] ++
            { mkLog auditEntry1 (chainHash hashStub none []) with
              action := codes "HACK", details := codes "x" } ::
            mkChain hashStub
              (some (hashStub (hashInput
                (mkLog auditEntry1 (chainHash hashStub none []))
                (chainHash hashStub none [])))) [auditEntry2],
          blocks := [] }).1.invalid_blocks) :=
  ⟨((verifyHashChain_tamper_detection hashStub (codes "admin")).1
      [auditEntry1, auditEntry2] []).1,
   ((verifyHashChain_tamper_detection hashStub (codes "admin")).2
      [] auditEntry1 auditEntry2 [] (codes "HACK") (codes "x") []
      (by decide)).1⟩

/-- The honest single-entry log with its content tampered (stored
previous_hash untouched). -/
def tamperedFinalLog : AuditLog :=
  { mkLog auditEntry1 none with details := codes "edited" }

/-- C2 counterexample. A log whose single (hence final) entry has
tampered content verifies with zero invalid blocks and healthy: the
per-entry check only compares the stored previous_hash reference, so a
content-tamper of the last entry — with no later entry to contradict it —
goes undetected, refuting the claim for that case. -/
theorem verifyHashChain_misses_final_tamper :
    mkChain hashStub none [auditEntry1] = [mkLog auditEntry1 none] ∧
    tamperedFinalLog ≠ mkLog auditEntry1 none ∧
    tamperedFinalLog.previous_hash = (mkLog auditEntry1 none).previous_hash ∧
    (verifyHashChain hashStub (codes "admin")
      { audit_logs := [tamperedFinalLog], blocks := [] }).1.invalid_blocks = 0 ∧
    (verifyHashChain hashStub (codes "admin")
      { audit_logs := [tamperedFinalLog], blocks := [] }).1.chain_health =
      codes "healthy" := by
  decide

end OpenaiController

namespace AnomalyDetection

/-- The default thresholds of detectAddressClusters. -/
def defaultThresholds : Thresholds := { low := 6, medium := 12, high := 20 }

/-- A qualifying cluster of 6 voters (distinct surnames, registrations
spread over 10 days) all sharing one birth date. -/
def sharedDobCluster : List VoterReg :=
  [ { voter_id := 1, name := codes "anil sharma",
      dob := some (codes "1990-01-01"), created_at := 0 },
    { voter_id := 2, name := codes "ravi verma",
      dob := some (codes "1990-01-01"), created_at := 172800000 },
    { voter_id := 3, name := codes "sita gupta",
      dob := some (codes "1990-01-01"), created_at := 345600000 },
    { voter_id := 4, name := codes "mohan patel",
      dob := some (codes "1990-01-01"), created_at := 518400000 },
    { voter_id := 5, name := codes "gita singh",
      dob := some (codes "1990-01-01"), created_at := 691200000 },
    { voter_id := 6, name := codes "ram yadav",
      dob := some (codes "1990-01-01"), created_at := 864000000 } ]

/-- The same cluster with six pairwise distinct birth dates. -/
def distinctDobCluster : List VoterReg :=
  [ { voter_id := 1, name := codes "anil sharma",
      dob := some (codes "1990-01-01"), created_at := 0 },
    { voter_id := 2, name := codes "ravi verma",
      dob := some (codes "1991-02-02"), created_at := 172800000 },
    { voter_id := 3, name := codes "sita gupta",
      dob := some (codes "1992-03-03"), created_at := 345600000 },
    { voter_id := 4, name := codes "mohan patel",
      dob := some (codes "1993-04-04"), created_at := 518400000 },
    { voter_id := 5, name := codes "gita singh",
      dob := some (codes "1994-05-05"), created_at := 691200000 },
    { voter_id := 6, name := codes "ram yadav",
      dob := some (codes "1995-06-06"), created_at := 864000000 } ]

unseal Rat.add Rat.sub Rat.mul Rat.inv in
/-- C8. Evaluating detectAddressClusters at the failing input: a
qualifying 6-voter cluster in which all 6 members share one birth date
receives exactly the same risk score (0.1, low) as the same cluster with
six distinct birth dates — the DOB-clustering penalty never fires,
because the SQL aggregate collapses duplicate birth dates
(GROUP_CONCAT(DISTINCT dob)) before they are counted, so the most common
birth date always counts 1. -/
theorem clusterRisk_dob_concentration_ignored :
    (clusterRow sharedDobCluster).voter_count = 6 ∧
    (sharedDobCluster.map (·.dob)).count (some (codes "1990-01-01")) = 6 ∧
    clusterRisk defaultThresholds sharedDobCluster =
      clusterRisk defaultThresholds distinctDobCluster ∧
    clusterRisk defaultThresholds sharedDobCluster = (1 / 10, .low) := by
  decide

end AnomalyDetection

namespace AddressValidationService

theorem classify_fst_eq (q : ℚ) (pv : Bool) (conf : ℚ) :
    (classify q pv conf).1 =
      if pv = false ∨ conf < 1 / 2 then .flagged
      else if q < 1 / 2 then .rejected
      else if q < 3 / 4 then .flagged
      else .passed := by
  unfold classify
  cases pv <;> split_ifs <;> first | rfl | tauto

theorem classify_snd_eq (q : ℚ) (pv : Bool) (conf : ℚ) :
    (classify q pv conf).2 =
      ((if q < 1 / 2 then [codes "low_quality_score"]
        else if q < 3 / 4 then [codes "medium_quality_score"] else []) ++
       (if pv = false then [codes "pin_mismatch"] else [])) ++
      (if conf < 1 / 2 then [codes "low_geocode_confidence"] else []) := by
  unfold classify
  cases pv <;> split_ifs <;> first | rfl | tauto

/-- C7 (amended). The categorical result of validateAddress follows the
0.5/0.75 score thresholds only when the pin validation passed and the
geocode confidence is at least 0.5; an invalid pin or a low confidence
overwrites the result — including a rejected or passed one — with
flagged. The flag reasons are the threshold reason plus pin_mismatch and
low_geocode_confidence exactly when those overrides fired. -/
theorem validateAddress_classification (H : List Nat → List Nat)
    (cached providerResult : Option GeoResult) (c : AddressComponents) :
    ((validateAddress H cached providerResult c).validationResult =
      if (validateAddress H cached providerResult c).pinValidation.valid = false ∨
         (validateAddress H cached providerResult c).geocode.confidence < 1 / 2
      then .flagged
      else if (validateAddress H cached providerResult c).qualityScore < 1 / 2
      then .rejected
      else if (validateAddress H cached providerResult c).qualityScore < 3 / 4
      then .flagged
      else .passed) ∧
    ((validateAddress H cached providerResult c).flags =
      ((if (validateAddress H cached providerResult c).qualityScore < 1 / 2
        then [codes "low_quality_score"]
        else if (validateAddress H cached providerResult c).qualityScore < 3 / 4
        then [codes "medium_quality_score"] else []) ++
       (if (validateAddress H cached providerResult c).pinValidation.valid = false
        then [codes "pin_mismatch"] else [])) ++
      (if (validateAddress H cached providerResult c).geocode.confidence < 1 / 2
       then [codes "low_geocode_confidence"] else [])) := by
  constructor
  · have h : (validateAddress H cached providerResult c).validationResult =
        (classify (validateAddress H cached providerResult c).qualityScore
          (validateAddress H cached providerResult c).pinValidation.valid
          (validateAddress H cached providerResult c).geocode.confidence).1 := rfl
    rw [h, classify_fst_eq]
  · have h : (validateAddress H cached providerResult c).flags =
        (classify (validateAddress H cached providerResult c).qualityScore
          (validateAddress H cached providerResult c).pinValidation.valid
          (validateAddress H cached providerResult c).geocode.confidence).2 := rfl
    rw [h, classify_snd_eq]

/-- The all-empty submission. -/
def emptyComps : AddressComponents :=
  { house_number := [], street := [], village_city := [], district := [],
    state := [], pin_code := [] }

unseal Rat.add Rat.mul Rat.inv in
/-- C7 counterexample. On the empty submission (fallback geocode,
confidence 0.6, quality score 0.18) the claim requires validationResult
rejected, since 0.18 is below 0.5; the code returns flagged, because the
invalid-pin branch overwrites the rejected classification. -/
theorem validateAddress_rejected_overwritten :
    (validateAddress OpenaiController.hashStub none none
      emptyComps).qualityScore = 18 / 100 ∧
    (validateAddress OpenaiController.hashStub none none
      emptyComps).qualityScore < 1 / 2 ∧
    (validateAddress OpenaiController.hashStub none none
      emptyComps).validationResult = .flagged := by
  decide

end AddressValidationService

namespace NameValidationService

/-- A frequency table holding the token aeio with score 3/7 (the blended
frequency becomes 0.6). -/
def aeioFreqTbl : List FreqRow :=
  [{ name_token := codes "aeio", name_type := codes "first_name",
     frequency_score := 3 / 7 }]

/-- The same table with score 2/7 (blended frequency 0.5). -/
def aeioFreqTbl2 : List FreqRow :=
  [{ name_token := codes "aeio", name_type := codes "first_name",
     frequency_score := 2 / 7 }]

unseal Rat.add Rat.mul Rat.inv in
/-- C10 counterexample. The name aeio passes the basic rules and, with a
frequency-table score of 3/7, its computed quality score is 0.498394 —
inside [0.4, 0.5) — yet validateName returns validationResult flagged,
not rejected: the categorical result is computed from the score rounded
to two decimals (0.50), not from the computed score the boolean validity
uses. -/
theorem validateName_gap_rounding_escape :
    (validateBasicRules (codes "aeio")).valid = true ∧
    4 / 10 ≤ finalScore aeioFreqTbl (codes "aeio") (codes "first_name") ∧
    finalScore aeioFreqTbl (codes "aeio") (codes "first_name") < 1 / 2 ∧
    (validateName aeioFreqTbl (codes "aeio") (codes "first_name")).valid
      = true ∧
    (validateName aeioFreqTbl (codes "aeio")
      (codes "first_name")).validationResult = .flagged := by
  decide

/-- C10 (amended). For every name passing the basic rule checks whose
computed quality score lies in [0.4, 0.495) — so that the two-decimal
rounding keeps the returned score below 0.5 — validateName returns
valid = true (threshold 0.4 on the computed score) together with
validationResult rejected (threshold 0.5 on the rounded score): the
boolean flag and the categorical result disagree on that interval. -/
theorem validateName_threshold_gap (tbl : List FreqRow)
    (name nameType : List Nat)
    (hbasic : (validateBasicRules name).valid = true)
    (h1 : 4 / 10 ≤ finalScore tbl name nameType)
    (h2 : finalScore tbl name nameType < 495 / 1000) :
    (validateName tbl name nameType).valid = true ∧
    (validateName tbl name nameType).validationResult = .rejected := by
  have hround : round2 (finalScore tbl name nameType) < 5 / 10 := by
    unfold round2
    have hf : ⌊finalScore tbl name nameType * 100 + 1 / 2⌋ < (50 : ℤ) := by
      rw [Int.floor_lt]
      push_cast
      linarith
    have hfq : (⌊finalScore tbl name nameType * 100 + 1 / 2⌋ : ℚ) < 50 := by
      exact_mod_cast hf
    rw [div_lt_iff₀ (by norm_num : (0 : ℚ) < 100)]
    linarith
  have h8 : ¬ (8 / 10 : ℚ) ≤ round2 (finalScore tbl name nameType) := by
    intro hcon; linarith
  have h5 : ¬ (5 / 10 : ℚ) ≤ round2 (finalScore tbl name nameType) := by
    intro hcon; linarith
  simp only [validateName, calculateQualityScore, hbasic, Bool.not_true,
    Bool.false_eq_true, if_false, h8, h5, if_true]
  exact ⟨by simp [h1], trivial⟩

unseal Rat.add Rat.mul Rat.inv in
/-- Witness for the amended C10: with frequency 2/7 the computed score is
0.474094, inside [0.4, 0.495). -/
theorem validateName_threshold_gap_witness :
    (validateName aeioFreqTbl2 (codes "aeio") (codes "first_name")).valid
      = true ∧
    (validateName aeioFreqTbl2 (codes "aeio")
      (codes "first_name")).validationResult = .rejected :=
  validateName_threshold_gap aeioFreqTbl2 (codes "aeio") (codes "first_name")
    (by decide) (by decide) (by decide)

end NameValidationService

namespace AddressValidationService

/-- Characters of a canonically spaced address component: word
characters, space, hyphen. -/
def allowedChar (n : Nat) : Bool := isWordChar n || n = 32 || n = 45

/-- No two adjacent spaces. -/
def noAdjSpace : List Nat → Bool
  | [] => true
  | [_] => true
  | a :: b :: rest => !(a = 32 && b = 32) && noAdjSpace (b :: rest)

/-- A canonically spaced component string: allowed characters only, no
doubled spaces, no leading or trailing space. -/
def cleanStr (l : List Nat) : Bool :=
  l.all allowedChar && noAdjSpace l &&
    decide (l.head? ≠ some 32) && decide (l.getLast? ≠ some 32)

theorem allowed_ws_eq_space {x : Nat} (ha : allowedChar x = true)
    (hw : isWs x = true) : x = 32 := by
  simp [allowedChar, isWordChar] at ha
  simp [isWs] at hw
  omega

theorem allowed_not_ws {x : Nat} (ha : allowedChar x = true) (hx : x ≠ 32) :
    isWs x = false := by
  simp [allowedChar, isWordChar] at ha
  simp [isWs]
  omega

theorem lowerChar_idem (n : Nat) : lowerChar (lowerChar n) = lowerChar n := by
  unfold lowerChar
  split_ifs with h1 h2 <;> simp_all <;> omega

theorem lowerChar_eq_32 {n : Nat} : lowerChar n = 32 ↔ n = 32 := by
  unfold lowerChar
  split_ifs with h <;> simp_all <;> omega

theorem lowerChar_allowed {n : Nat} (h : allowedChar n = true) :
    allowedChar (lowerChar n) = true := by
  simp [allowedChar, isWordChar, lowerChar] at h ⊢
  split_ifs with hc <;> simp_all <;> omega

theorem mapLower_idem (l : List Nat) : mapLower (mapLower l) = mapLower l := by
  unfold mapLower
  rw [List.map_map]
  apply List.map_congr_left
  intro x _
  exact lowerChar_idem x

theorem trimJs_eq_self {l : List Nat} (ha : l.all allowedChar = true)
    (hh : l.head? ≠ some 32) (hl : l.getLast? ≠ some 32) : trimJs l = l := by
  unfold trimJs
  have hdrop : ∀ (m : List Nat), m.all allowedChar = true →
      m.head? ≠ some 32 → m.dropWhile isWs = m := by
    intro m hm hmh
    cases m with
    | nil => rfl
    | cons c cs =>
      rw [List.dropWhile_cons]
      have hc : allowedChar c = true := by
        simp only [List.all_cons, Bool.and_eq_true] at hm
        exact hm.1
      have hcne : c ≠ 32 := by
        intro hcon
        exact hmh (by simp [hcon])
      rw [allowed_not_ws hc hcne]
      simp
  rw [hdrop l ha hh]
  rw [hdrop l.reverse (by simpa [List.all_reverse] using ha)
    (by rwa [List.head?_reverse])]
  exact List.reverse_reverse l

theorem noAdjSpace_tail {c : Nat} {cs : List Nat}
    (h : noAdjSpace (c :: cs) = true) : noAdjSpace cs = true := by
  cases cs with
  | nil => rfl
  | cons d ds =>
    unfold noAdjSpace at h
    simp only [Bool.and_eq_true] at h
    exact h.2

theorem noAdjSpace_head {cs : List Nat}
    (h : noAdjSpace (32 :: cs) = true) : cs.head? ≠ some 32 := by
  cases cs with
  | nil => simp
  | cons d ds =>
    unfold noAdjSpace at h
    simp only [Bool.and_eq_true, Bool.not_eq_true', Bool.and_eq_false_iff,
      decide_eq_false_iff_not] at h
    simp only [List.head?_cons, ne_eq, Option.some.injEq]
    rcases h.1 with h1 | h1
    · exact absurd trivial h1
    · exact h1

theorem collapseWsAux_eq_self :
    ∀ (l : List Nat) (b : Bool), l.all allowedChar = true →
      noAdjSpace l = true → (b = true → l.head? ≠ some 32) →
      collapseWsAux b l = l := by
  intro l
  induction l with
  | nil => intro b _ _ _; rfl
  | cons c cs ih =>
    intro b hall hadj hb
    have hc : allowedChar c = true := by
      simp only [List.all_cons, Bool.and_eq_true] at hall
      exact hall.1
    have hcs : cs.all allowedChar = true := by
      simp only [List.all_cons, Bool.and_eq_true] at hall
      exact hall.2
    unfold collapseWsAux
    by_cases hcw : isWs c = true
    · have hc32 : c = 32 := allowed_ws_eq_space hc hcw
      have hbf : b = false := by
        cases b with
        | false => rfl
        | true => exact absurd (by simp [hc32]) (hb rfl)
      subst hbf hc32
      rw [hcw]
      simp only [if_true, Bool.false_eq_true, if_false]
      congr 1
      exact ih true hcs (noAdjSpace_tail hadj)
        (fun _ => noAdjSpace_head hadj)
    · rw [Bool.not_eq_true] at hcw
      rw [hcw]
      simp only [Bool.false_eq_true, if_false]
      congr 1
      exact ih false hcs (noAdjSpace_tail hadj)
        (fun hcon => absurd hcon (by simp))

theorem collapseWs_eq_self {l : List Nat} (ha : l.all allowedChar = true)
    (hadj : noAdjSpace l = true) : collapseWs l = l :=
  collapseWsAux_eq_self l false ha hadj
    (fun hcon => absurd hcon (by simp))

theorem stripPunct_eq_self {l : List Nat} (ha : l.all allowedChar = true) :
    stripPunct l = l := by
  unfold stripPunct
  rw [List.filter_eq_self]
  intro x hx
  have hx2 : allowedChar x = true := by
    rw [List.all_eq_true] at ha
    exact ha x hx
  have hx3 : isWordChar x = true ∨ x = 32 ∨ x = 45 := by
    simp only [allowedChar, Bool.or_eq_true, decide_eq_true_eq] at hx2
    tauto
  rcases hx3 with h | h | h
  · simp [h]
  · simp [h, isWs]
  · simp [h]

theorem cleanStr_parts {l : List Nat} (h : cleanStr l = true) :
    l.all allowedChar = true ∧ noAdjSpace l = true ∧
    l.head? ≠ some 32 ∧ l.getLast? ≠ some 32 := by
  simp only [cleanStr, Bool.and_eq_true, decide_eq_true_eq] at h
  exact ⟨h.1.1.1, h.1.1.2, h.1.2, h.2⟩

theorem mapLower_all_allowed {l : List Nat} (h : l.all allowedChar = true) :
    (mapLower l).all allowedChar = true := by
  unfold mapLower
  rw [List.all_map, List.all_eq_true] at *
  intro x hx
  exact lowerChar_allowed (h x hx)

theorem noAdjSpace_mapLower {l : List Nat} (h : noAdjSpace l = true) :
    noAdjSpace (mapLower l) = true := by
  induction l with
  | nil => rfl
  | cons a cs ih =>
    cases cs with
    | nil => rfl
    | cons d ds =>
      have hstep := noAdjSpace_tail h
      unfold noAdjSpace at h ⊢
      simp only [mapLower, List.map_cons, Bool.and_eq_true] at *
      refine ⟨?_, ih hstep⟩
      have h1 := h.1
      simp only [Bool.not_eq_true', Bool.and_eq_false_iff,
        decide_eq_false_iff_not] at h1 ⊢
      rcases h1 with h1 | h1
      · exact Or.inl (fun hcon => h1 (lowerChar_eq_32.mp hcon))
      · exact Or.inr (fun hcon => h1 (lowerChar_eq_32.mp hcon))

theorem head_mapLower {l : List Nat} (h : l.head? ≠ some 32) :
    (mapLower l).head? ≠ some 32 := by
  cases l with
  | nil => simp [mapLower]
  | cons c cs =>
    simp only [mapLower, List.map_cons, List.head?_cons, ne_eq,
      Option.some.injEq] at h ⊢
    exact fun hcon => h (lowerChar_eq_32.mp hcon)

theorem getLast_mapLower {l : List Nat} (h : l.getLast? ≠ some 32) :
    (mapLower l).getLast? ≠ some 32 := by
  unfold mapLower
  rw [List.getLast?_map]
  intro hcon
  rcases Option.map_eq_some'.mp hcon with ⟨x, hx, hlx⟩
  exact h (by rw [hx, lowerChar_eq_32.mp hlx])

theorem cleanStr_mapLower {l : List Nat} (h : cleanStr l = true) :
    cleanStr (mapLower l) = true := by
  obtain ⟨h1, h2, h3, h4⟩ := cleanStr_parts h
  simp only [cleanStr, Bool.and_eq_true, decide_eq_true_eq]
  exact ⟨⟨⟨mapLower_all_allowed h1, noAdjSpace_mapLower h2⟩,
    head_mapLower h3⟩, getLast_mapLower h4⟩

theorem normalize_eq_mapLower {l : List Nat} (h : cleanStr l = true) :
    normalize l = mapLower l := by
  obtain ⟨h1, h2, h3, h4⟩ := cleanStr_parts h
  unfold normalize
  rw [trimJs_eq_self h1 h3 h4]
  rw [collapseWs_eq_self (mapLower_all_allowed h1) (noAdjSpace_mapLower h2)]
  rw [stripPunct_eq_self (mapLower_all_allowed h1)]

theorem normalize_idem_clean {l : List Nat} (h : cleanStr l = true) :
    normalize (normalize l) = normalize l := by
  rw [normalize_eq_mapLower h, normalize_eq_mapLower (cleanStr_mapLower h),
    mapLower_idem]

/-- A non-empty all-word-character string (the shape of every
abbreviation key and every expansion). -/
def wordStr (l : List Nat) : Bool := decide (l ≠ []) && l.all isWordChar

/-- The character class of a chunk (word or separator). -/
def chunkClass (t : List Nat) : Bool := isWordChar t.headI

/-- A chunk is non-empty and uniformly of its class. -/
def uniformChunk (t : List Nat) : Bool :=
  decide (t ≠ []) && t.all (fun x => isWordChar x = chunkClass t)

/-- Chunks are uniform and adjacent chunks have different classes (the
shape the chunks function produces). -/
def altChunks : List (List Nat) → Bool
  | [] => true
  | [t] => uniformChunk t
  | t :: u :: rest =>
    uniformChunk t && decide (chunkClass t ≠ chunkClass u) &&
      altChunks (u :: rest)

/-- The sequential replacement passes of expandAbbreviation over a
table. -/
def foldPasses (tab : List (List Nat × List Nat)) (l : List Nat) : List Nat :=
  tab.foldl (fun a kv => expandPass kv.1 kv.2 a) l

theorem expandAbbreviation_eq_foldPasses (l : List Nat) :
    expandAbbreviation l = foldPasses abbreviations (mapLower l) := rfl

theorem chunks_cons_of_nil (c : Nat) (cs : List Nat)
    (hcs : chunks cs = []) : chunks (c :: cs) = [[c]] := by
  unfold chunks
  rw [hcs]

theorem chunks_cons_of_cons (c : Nat) (cs : List Nat) (d : Nat)
    (t' : List Nat) (ts : List (List Nat))
    (hcs : chunks cs = (d :: t') :: ts) :
    chunks (c :: cs) =
      if isWordChar c = isWordChar d then (c :: d :: t') :: ts
      else [c] :: (d :: t') :: ts := by
  unfold chunks
  rw [hcs]

theorem chunks_ne_nil : ∀ (l : List Nat), ∀ t ∈ chunks l, t ≠ [] := by
  intro l
  induction l with
  | nil => intro t ht; exact absurd ht (List.not_mem_nil t)
  | cons c cs ih =>
    intro t ht
    cases hcs : chunks cs with
    | nil =>
      rw [chunks_cons_of_nil c cs hcs] at ht
      simp at ht
      rw [ht]
      exact List.cons_ne_nil c []
    | cons e ts =>
      cases e with
      | nil => exact absurd rfl (ih [] (hcs ▸ List.mem_cons_self [] ts))
      | cons d t' =>
        rw [chunks_cons_of_cons c cs d t' ts hcs] at ht
        by_cases hcd : isWordChar c = isWordChar d
        · rw [if_pos hcd] at ht
          rcases List.mem_cons.mp ht with h | h
          · rw [h]; exact List.cons_ne_nil _ _
          · exact ih t (hcs ▸ List.mem_cons_of_mem _ h)
        · rw [if_neg hcd] at ht
          rcases List.mem_cons.mp ht with h | h
          · rw [h]; exact List.cons_ne_nil _ _
          · exact ih t (hcs ▸ h)

theorem chunks_eq_nil_iff (l : List Nat) : chunks l = [] ↔ l = [] := by
  constructor
  · intro h
    cases l with
    | nil => rfl
    | cons c cs =>
      cases hcs : chunks cs with
      | nil =>
        rw [chunks_cons_of_nil c cs hcs] at h
        exact absurd h (by simp)
      | cons e ts =>
        cases e with
        | nil =>
          exact absurd rfl
            (chunks_ne_nil cs [] (hcs ▸ List.mem_cons_self [] ts))
        | cons d t' =>
          rw [chunks_cons_of_cons c cs d t' ts hcs] at h
          by_cases hcd : isWordChar c = isWordChar d
          · rw [if_pos hcd] at h; exact absurd h (by simp)
          · rw [if_neg hcd] at h; exact absurd h (by simp)
  · intro h; rw [h]; rfl

theorem chunks_cons_shape (c : Nat) (cs : List Nat) :
    ∃ t ts, chunks (c :: cs) = (c :: t) :: ts := by
  cases hcs : chunks cs with
  | nil => exact ⟨[], [], chunks_cons_of_nil c cs hcs⟩
  | cons e ts =>
    cases e with
    | nil =>
      exact absurd rfl (chunks_ne_nil cs [] (hcs ▸ List.mem_cons_self [] ts))
    | cons d t' =>
      by_cases hcd : isWordChar c = isWordChar d
      · exact ⟨d :: t', ts, by
          rw [chunks_cons_of_cons c cs d t' ts hcs, if_pos hcd]⟩
      · exact ⟨[], (d :: t') :: ts, by
          rw [chunks_cons_of_cons c cs d t' ts hcs, if_neg hcd]⟩

theorem joinChunks_chunks : ∀ (l : List Nat), joinChunks (chunks l) = l := by
  intro l
  induction l with
  | nil => rfl
  | cons c cs ih =>
    cases hcs : chunks cs with
    | nil =>
      have hnil : cs = [] := (chunks_eq_nil_iff cs).mp hcs
      rw [chunks_cons_of_nil c cs hcs, hnil]
      rfl
    | cons e ts =>
      cases e with
      | nil =>
        exact absurd rfl (chunks_ne_nil cs [] (hcs ▸ List.mem_cons_self [] ts))
      | cons d t' =>
        rw [hcs] at ih
        rw [chunks_cons_of_cons c cs d t' ts hcs]
        by_cases hcd : isWordChar c = isWordChar d
        · rw [if_pos hcd]
          show (c :: d :: t') ++ joinChunks ts = c :: cs
          have hj : (d :: t') ++ joinChunks ts = cs := ih
          rw [← hj]
          rfl
        · rw [if_neg hcd]
          show [c] ++ ((d :: t') ++ joinChunks ts) = c :: cs
          have hj : (d :: t') ++ joinChunks ts = cs := ih
          rw [hj]
          rfl

theorem chunks_append : ∀ (t : List Nat) (b : Bool) (r : List Nat),
    t ≠ [] → (∀ x ∈ t, isWordChar x = b) →
    (∀ d, r.head? = some d → isWordChar d ≠ b) →
    chunks (t ++ r) = t :: chunks r := by
  intro t
  induction t with
  | nil => intro b r h _ _; exact absurd rfl h
  | cons x t' ih =>
    intro b r _ huni hhead
    cases t' with
    | nil =>
      show chunks (x :: r) = [x] :: chunks r
      cases r with
      | nil =>
        show chunks [x] = [x] :: chunks []
        rfl
      | cons rh rt =>
        obtain ⟨t0, ts0, hshape⟩ := chunks_cons_shape rh rt
        rw [chunks_cons_of_cons x (rh :: rt) rh t0 ts0 hshape]
        have hx : isWordChar x = b := huni x (List.mem_cons_self x [])
        have hrh : isWordChar rh ≠ b := hhead rh rfl
        rw [if_neg (by rw [hx]; exact fun hcon => hrh hcon.symm), hshape]
    | cons y t'' =>
      have hys := ih b r (List.cons_ne_nil y t'')
        (fun z hz => huni z (List.mem_cons_of_mem x hz)) hhead
      show chunks (x :: ((y :: t'') ++ r)) = (x :: y :: t'') :: chunks r
      rw [chunks_cons_of_cons x ((y :: t'') ++ r) y t'' (chunks r)
        (by simpa using hys)]
      have hx : isWordChar x = b := huni x (List.mem_cons_self _ _)
      have hy : isWordChar y = b := huni y (by simp)
      rw [if_pos (by rw [hx, hy])]

theorem altChunks_single (t : List Nat) : altChunks [t] = uniformChunk t := rfl

theorem altChunks_pair (t u : List Nat) (rest : List (List Nat)) :
    altChunks (t :: u :: rest) =
      (uniformChunk t && decide (chunkClass t ≠ chunkClass u) &&
        altChunks (u :: rest)) := rfl

theorem uniformChunk_parts {t : List Nat} (h : uniformChunk t = true) :
    t ≠ [] ∧ ∀ x ∈ t, isWordChar x = chunkClass t := by
  simp only [uniformChunk, Bool.and_eq_true, decide_eq_true_eq,
    List.all_eq_true] at h
  exact h

theorem alt_head_uniform {u : List Nat} {rest : List (List Nat)}
    (h : altChunks (u :: rest) = true) : uniformChunk u = true := by
  cases rest with
  | nil => exact h
  | cons v rest' =>
    rw [altChunks_pair] at h
    simp only [Bool.and_eq_true] at h
    exact h.1.1

theorem alt_tail {u : List Nat} {rest : List (List Nat)}
    (h : altChunks (u :: rest) = true) : altChunks rest = true := by
  cases rest with
  | nil => rfl
  | cons v rest' =>
    rw [altChunks_pair] at h
    simp only [Bool.and_eq_true] at h
    exact h.2

theorem uniform_extend {c d : Nat} {t' : List Nat}
    (hcd : isWordChar c = isWordChar d)
    (hu : uniformChunk (d :: t') = true) :
    uniformChunk (c :: d :: t') = true := by
  obtain ⟨_, hall⟩ := uniformChunk_parts hu
  simp only [uniformChunk, chunkClass, Bool.and_eq_true, decide_eq_true_eq,
    List.all_eq_true, List.headI] at hall ⊢
  refine ⟨by simp, ?_⟩
  intro x hx
  rcases List.mem_cons.mp hx with h | h
  · rw [h]
  · rw [hall x h, hcd]

theorem chunkClass_cons_cons (c d : Nat) (t' : List Nat) :
    chunkClass (c :: d :: t') = isWordChar c := rfl

theorem altChunks_chunks : ∀ (l : List Nat), altChunks (chunks l) = true := by
  intro l
  induction l with
  | nil => rfl
  | cons c cs ih =>
    cases hcs : chunks cs with
    | nil =>
      rw [chunks_cons_of_nil c cs hcs, altChunks_single]
      simp [uniformChunk, chunkClass]
    | cons e ts =>
      cases e with
      | nil =>
        exact absurd rfl (chunks_ne_nil cs [] (hcs ▸ List.mem_cons_self [] ts))
      | cons d t' =>
        rw [hcs] at ih
        rw [chunks_cons_of_cons c cs d t' ts hcs]
        by_cases hcd : isWordChar c = isWordChar d
        · rw [if_pos hcd]
          cases ts with
          | nil =>
            rw [altChunks_single]
            exact uniform_extend hcd (by rwa [altChunks_single] at ih)
          | cons u ts' =>
            rw [altChunks_pair] at ih ⊢
            simp only [Bool.and_eq_true, decide_eq_true_eq] at ih ⊢
            refine ⟨⟨uniform_extend hcd ih.1.1, ?_⟩, ih.2⟩
            rw [chunkClass_cons_cons]
            rw [show chunkClass (d :: t') = isWordChar d from rfl] at ih
            rw [hcd]
            exact ih.1.2
        · rw [if_neg hcd]
          rw [altChunks_pair]
          simp only [Bool.and_eq_true, decide_eq_true_eq]
          refine ⟨⟨by simp [uniformChunk, chunkClass], ?_⟩, ih⟩
          rw [show chunkClass [c] = isWordChar c from rfl,
            show chunkClass (d :: t') = isWordChar d from rfl]
          exact hcd

theorem chunks_joinChunks : ∀ (cs : List (List Nat)),
    altChunks cs = true → chunks (joinChunks cs) = cs := by
  intro cs
  induction cs with
  | nil => intro _; rfl
  | cons t rest ih =>
    intro h
    obtain ⟨hne, huni⟩ := uniformChunk_parts (alt_head_uniform h)
    cases rest with
    | nil =>
      show chunks (t ++ joinChunks []) = [t]
      rw [chunks_append t (chunkClass t) (joinChunks []) hne huni
        (by intro d hd; simp [joinChunks] at hd)]
      rfl
    | cons u rest' =>
      rw [altChunks_pair] at h
      simp only [Bool.and_eq_true, decide_eq_true_eq] at h
      obtain ⟨⟨hut, hclass⟩, htail⟩ := h
      obtain ⟨hune, huuni⟩ := uniformChunk_parts (alt_head_uniform htail)
      show chunks (t ++ joinChunks (u :: rest')) = t :: u :: rest'
      rw [chunks_append t (chunkClass t) (joinChunks (u :: rest')) hne huni ?hd]
      · rw [ih htail]
      case hd =>
        intro d hd
        cases u with
        | nil => exact absurd rfl hune
        | cons u0 ut =>
          have : (joinChunks ((u0 :: ut) :: rest')).head? = some u0 := rfl
          rw [this] at hd
          rw [Option.some_inj] at hd
          rw [← hd]
          have : isWordChar u0 = chunkClass (u0 :: ut) :=
            huuni u0 (List.mem_cons_self _ _)
          rw [this]
          exact fun hcon => hclass hcon.symm

theorem replace_chunk_facts {abbr full : List Nat} (t : List Nat)
    (hab : wordStr abbr = true) (hfu : wordStr full = true)
    (hu : uniformChunk t = true) :
    uniformChunk (if t = abbr then full else t) = true ∧
    chunkClass (if t = abbr then full else t) = chunkClass t := by
  simp only [wordStr, Bool.and_eq_true, decide_eq_true_eq,
    List.all_eq_true] at hab hfu
  have hclassword : ∀ (w : List Nat), w ≠ [] → (∀ x ∈ w, isWordChar x = true) →
      chunkClass w = true ∧ uniformChunk w = true := by
    intro w hw hall
    cases w with
    | nil => exact absurd rfl hw
    | cons w0 wt =>
      have hc : chunkClass (w0 :: wt) = true := hall w0 (List.mem_cons_self _ _)
      refine ⟨hc, ?_⟩
      simp only [uniformChunk, Bool.and_eq_true, decide_eq_true_eq,
        List.all_eq_true]
      exact ⟨by simp, fun x hx => by rw [hall x hx, hc]⟩
  by_cases ht : t = abbr
  · subst ht
    rw [if_pos rfl]
    obtain ⟨hfc, hfu2⟩ := hclassword full hfu.1 hfu.2
    obtain ⟨hac, _⟩ := hclassword t hab.1 hab.2
    exact ⟨hfu2, by rw [hfc, hac]⟩
  · rw [if_neg ht]
    exact ⟨hu, rfl⟩

theorem altChunks_map_replace {abbr full : List Nat}
    (hab : wordStr abbr = true) (hfu : wordStr full = true) :
    ∀ (cs : List (List Nat)), altChunks cs = true →
      altChunks (cs.map (fun t => if t = abbr then full else t)) = true := by
  intro cs
  induction cs with
  | nil => intro _; rfl
  | cons t rest ih =>
    intro h
    cases rest with
    | nil =>
      rw [List.map_cons, List.map_nil, altChunks_single]
      exact (replace_chunk_facts t hab hfu (by rwa [altChunks_single] at h)).1
    | cons u rest' =>
      rw [altChunks_pair] at h
      simp only [Bool.and_eq_true, decide_eq_true_eq] at h
      obtain ⟨⟨hut, hclass⟩, htail⟩ := h
      rw [List.map_cons, List.map_cons, altChunks_pair]
      simp only [Bool.and_eq_true, decide_eq_true_eq]
      obtain ⟨hu1, hc1⟩ := replace_chunk_facts t hab hfu hut
      obtain ⟨_, hc2⟩ := replace_chunk_facts u hab hfu (alt_head_uniform htail)
      refine ⟨⟨hu1, by rw [hc1, hc2]; exact hclass⟩, ?_⟩
      have := ih htail
      rwa [List.map_cons] at this

theorem chunks_expandPass {abbr full : List Nat} (l : List Nat)
    (hab : wordStr abbr = true) (hfu : wordStr full = true) :
    chunks (expandPass abbr full l) =
      (chunks l).map (fun t => if t = abbr then full else t) := by
  unfold expandPass
  exact chunks_joinChunks _
    (altChunks_map_replace hab hfu (chunks l) (altChunks_chunks l))

theorem expandPass_id {abbr full : List Nat} (l : List Nat)
    (h : ∀ t ∈ chunks l, t ≠ abbr) : expandPass abbr full l = l := by
  unfold expandPass
  have hmap : (chunks l).map (fun t => if t = abbr then full else t) =
      chunks l := by
    have : (chunks l).map (fun t => if t = abbr then full else t) =
        (chunks l).map (fun t => t) :=
      List.map_congr_left (fun t ht => if_neg (h t ht))
    rw [this]
    exact List.map_id' (chunks l)
  rw [hmap]
  exact joinChunks_chunks l

theorem abbreviations_ok : ∀ kv ∈ abbreviations,
    wordStr kv.1 = true ∧ wordStr kv.2 = true ∧
    (∀ x ∈ kv.2, lowerChar x = x ∧ allowedChar x = true ∧ x ≠ 32) ∧
    (∀ kv2 ∈ abbreviations, kv.2 ≠ kv2.1) := by
  decide

theorem foldPasses_nil (l : List Nat) : foldPasses [] l = l := rfl

theorem foldPasses_cons (kv : List Nat × List Nat)
    (tab : List (List Nat × List Nat)) (l : List Nat) :
    foldPasses (kv :: tab) l = foldPasses tab (expandPass kv.1 kv.2 l) := rfl

theorem foldPasses_avoid : ∀ (tab : List (List Nat × List Nat))
    (avoid : List (List Nat)) (l : List Nat),
    (∀ kv ∈ tab, wordStr kv.1 = true ∧ wordStr kv.2 = true) →
    (∀ kv ∈ tab, kv.2 ∉ avoid ∧ ∀ kv2 ∈ tab, kv.2 ≠ kv2.1) →
    (∀ t ∈ chunks l, t ∉ avoid) →
    ∀ t ∈ chunks (foldPasses tab l), t ∉ avoid ∧ ∀ kv ∈ tab, t ≠ kv.1 := by
  intro tab
  induction tab with
  | nil =>
    intro avoid l _ _ hl t ht
    exact ⟨hl t ht, fun kv hkv => absurd hkv (List.not_mem_nil kv)⟩
  | cons kv0 rest ih =>
    intro avoid l hw hv hl
    rw [foldPasses_cons]
    have hw0 := hw kv0 (List.mem_cons_self _ _)
    have hv0 := hv kv0 (List.mem_cons_self _ _)
    have hstep : ∀ t ∈ chunks (expandPass kv0.1 kv0.2 l),
        t ∉ (kv0.1 :: avoid) := by
      intro t ht
      rw [chunks_expandPass l hw0.1 hw0.2] at ht
      obtain ⟨u, hu, hfu⟩ := List.mem_map.mp ht
      by_cases hui : u = kv0.1
      · rw [if_pos hui] at hfu
        rw [← hfu]
        intro hmem
        rcases List.mem_cons.mp hmem with h | h
        · exact hv0.2 kv0 (List.mem_cons_self _ _) h
        · exact hv0.1 h
      · rw [if_neg hui] at hfu
        rw [← hfu]
        intro hmem
        rcases List.mem_cons.mp hmem with h | h
        · exact hui h
        · exact hl u hu h
    have hrest := ih (kv0.1 :: avoid) (expandPass kv0.1 kv0.2 l)
      (fun kv hkv => hw kv (List.mem_cons_of_mem _ hkv))
      (fun kv hkv => ⟨by
          intro hmem
          rcases List.mem_cons.mp hmem with h | h
          · exact hv kv (List.mem_cons_of_mem _ hkv) |>.2 kv0
              (List.mem_cons_self _ _) h
          · exact (hv kv (List.mem_cons_of_mem _ hkv)).1 h,
        fun kv2 hkv2 => (hv kv (List.mem_cons_of_mem _ hkv)).2 kv2
          (List.mem_cons_of_mem _ hkv2)⟩)
      hstep
    intro t ht
    obtain ⟨hnotin, hkeys⟩ := hrest t ht
    refine ⟨fun hmem => hnotin (List.mem_cons_of_mem _ hmem), ?_⟩
    intro kv hkv
    rcases List.mem_cons.mp hkv with h | h
    · rw [h]
      exact fun hcon => hnotin (hcon ▸ List.mem_cons_self _ _)
    · exact hkeys kv h

theorem foldPasses_id : ∀ (tab : List (List Nat × List Nat)) (l : List Nat),
    (∀ t ∈ chunks l, ∀ kv ∈ tab, t ≠ kv.1) → foldPasses tab l = l := by
  intro tab
  induction tab with
  | nil => intro l _; rfl
  | cons kv0 rest ih =>
    intro l h
    rw [foldPasses_cons,
      expandPass_id l (fun t ht => h t ht kv0 (List.mem_cons_self _ _))]
    exact ih l (fun t ht kv hkv => h t ht kv (List.mem_cons_of_mem _ hkv))

theorem foldPasses_chunk_origin : ∀ (tab : List (List Nat × List Nat))
    (l : List Nat),
    (∀ kv ∈ tab, wordStr kv.1 = true ∧ wordStr kv.2 = true) →
    ∀ t ∈ chunks (foldPasses tab l),
      (∃ kv ∈ tab, t = kv.2) ∨ t ∈ chunks l := by
  intro tab
  induction tab with
  | nil => intro l _ t ht; exact Or.inr ht
  | cons kv0 rest ih =>
    intro l hw t ht
    rw [foldPasses_cons] at ht
    have hw0 := hw kv0 (List.mem_cons_self _ _)
    rcases ih (expandPass kv0.1 kv0.2 l)
        (fun kv hkv => hw kv (List.mem_cons_of_mem _ hkv)) t ht with h | h
    · obtain ⟨kv, hkv, heq⟩ := h
      exact Or.inl ⟨kv, List.mem_cons_of_mem _ hkv, heq⟩
    · rw [chunks_expandPass l hw0.1 hw0.2] at h
      obtain ⟨u, hu, hfu⟩ := List.mem_map.mp h
      by_cases hui : u = kv0.1
      · rw [if_pos hui] at hfu
        exact Or.inl ⟨kv0, List.mem_cons_self _ _, hfu.symm⟩
      · rw [if_neg hui] at hfu
        exact Or.inr (hfu ▸ hu)

theorem mem_of_mem_chunks {x : Nat} {t l : List Nat}
    (ht : t ∈ chunks l) (hx : x ∈ t) : x ∈ l := by
  rw [← joinChunks_chunks l]
  unfold joinChunks
  exact List.mem_flatten.mpr ⟨t, ht, hx⟩

theorem word_ne_32 {x : Nat} (h : isWordChar x = true) : x ≠ 32 := by
  intro hx
  rw [hx] at h
  simp [isWordChar] at h

theorem noAdjSpace_of_no_space {t : List Nat} (h : ∀ x ∈ t, x ≠ 32) :
    noAdjSpace t = true := by
  induction t with
  | nil => rfl
  | cons a cs ih =>
    cases cs with
    | nil => rfl
    | cons b bs =>
      unfold noAdjSpace
      simp only [Bool.and_eq_true, Bool.not_eq_true', Bool.and_eq_false_iff,
        decide_eq_false_iff_not]
      exact ⟨Or.inl (h a (List.mem_cons_self _ _)),
        ih (fun x hx => h x (List.mem_cons_of_mem _ hx))⟩

theorem noAdjSpace_append {a b : List Nat} (ha : noAdjSpace a = true)
    (hb : noAdjSpace b = true)
    (hcross : ¬(a.getLast? = some 32 ∧ b.head? = some 32)) :
    noAdjSpace (a ++ b) = true := by
  induction a with
  | nil => simpa using hb
  | cons x a' ih =>
    cases a' with
    | nil =>
      cases b with
      | nil => simpa using ha
      | cons b0 bt =>
        show noAdjSpace (x :: b0 :: bt) = true
        unfold noAdjSpace
        simp only [Bool.and_eq_true, Bool.not_eq_true', Bool.and_eq_false_iff,
          decide_eq_false_iff_not]
        refine ⟨?_, hb⟩
        by_cases hx : x = 32
        · refine Or.inr ?_
          intro hb0
          exact hcross ⟨by simp [hx], by simp [hb0]⟩
        · exact Or.inl hx
    | cons y a'' =>
      show noAdjSpace (x :: ((y :: a'') ++ b)) = true
      have htail : noAdjSpace ((y :: a'') ++ b) = true := by
        apply ih (noAdjSpace_tail ha)
        intro ⟨h1, h2⟩
        exact hcross ⟨by rwa [List.getLast?_cons_cons], h2⟩
      cases hyb : (y :: a'') ++ b with
      | nil => exact absurd hyb (by simp)
      | cons z zs =>
        have hz : z = y := by
          have : (y :: a'') ++ b = y :: (a'' ++ b) := rfl
          rw [this] at hyb
          exact (List.cons.injEq _ _ _ _ ▸ hyb).1.symm
        show noAdjSpace (x :: z :: zs) = true
        unfold noAdjSpace
        simp only [Bool.and_eq_true, Bool.not_eq_true', Bool.and_eq_false_iff,
          decide_eq_false_iff_not]
        refine ⟨?_, by rw [← hyb]; exact htail⟩
        unfold noAdjSpace at ha
        simp only [Bool.and_eq_true, Bool.not_eq_true', Bool.and_eq_false_iff,
          decide_eq_false_iff_not] at ha
        rw [hz]
        exact ha.1

theorem noAdjSpace_append_parts {a b : List Nat}
    (h : noAdjSpace (a ++ b) = true) :
    noAdjSpace a = true ∧ noAdjSpace b = true := by
  induction a with
  | nil => exact ⟨rfl, by simpa using h⟩
  | cons x a' ih =>
    cases a' with
    | nil =>
      refine ⟨rfl, ?_⟩
      cases b with
      | nil => rfl
      | cons b0 bt =>
        exact noAdjSpace_tail
          (show noAdjSpace (x :: b0 :: bt) = true by simpa using h)
    | cons y a'' =>
      have hx : noAdjSpace ((y :: a'') ++ b) = true :=
        noAdjSpace_tail (by simpa using h)
      obtain ⟨h1, h2⟩ := ih hx
      refine ⟨?_, h2⟩
      unfold noAdjSpace
      simp only [Bool.and_eq_true]
      constructor
      · have hc : noAdjSpace (x :: y :: (a'' ++ b)) = true := by simpa using h
        unfold noAdjSpace at hc
        simp only [Bool.and_eq_true] at hc
        exact hc.1
      · exact h1

theorem noAdjSpace_chunk {l t : List Nat} (hl : noAdjSpace l = true)
    (ht : t ∈ chunks l) : noAdjSpace t = true := by
  have hjoin : noAdjSpace (joinChunks (chunks l)) = true := by
    rwa [joinChunks_chunks]
  have haux : ∀ (cs : List (List Nat)), noAdjSpace (joinChunks cs) = true →
      ∀ u ∈ cs, noAdjSpace u = true := by
    intro cs
    induction cs with
    | nil => intro _ u hu; exact absurd hu (List.not_mem_nil u)
    | cons v rest ih =>
      intro hj u hu
      have hsplit : noAdjSpace v = true ∧
          noAdjSpace (joinChunks rest) = true :=
        noAdjSpace_append_parts (by simpa [joinChunks] using hj)
      rcases List.mem_cons.mp hu with h | h
      · rw [h]; exact hsplit.1
      · exact ih hsplit.2 u h
  exact haux (chunks l) hjoin t ht

theorem joinChunks_head {cs : List (List Nat)} {t : List Nat}
    (hne : ∀ u ∈ cs, u ≠ []) (hhd : cs.head? = some t) :
    (joinChunks cs).head? = t.head? := by
  cases cs with
  | nil => exact absurd hhd (by simp)
  | cons v rest =>
    have hv : v = t := by simpa using hhd
    rw [← hv]
    cases v with
    | nil => exact absurd (hv.symm ▸ rfl) (hne [] (hv ▸ List.mem_cons_self _ _))
    | cons v0 vt => rfl

theorem joinChunks_getLast : ∀ (cs : List (List Nat)) (t : List Nat),
    (∀ u ∈ cs, u ≠ []) → cs.getLast? = some t →
    (joinChunks cs).getLast? = t.getLast? := by
  intro cs
  induction cs with
  | nil => intro t _ h; exact absurd h (by simp)
  | cons v rest ih =>
    intro t hne hlast
    cases rest with
    | nil =>
      have hv : v = t := by simpa using hlast
      rw [← hv]
      show (v ++ joinChunks []).getLast? = v.getLast?
      simp [joinChunks]
    | cons w rest' =>
      have hlast2 : (w :: rest').getLast? = some t := by
        rwa [List.getLast?_cons_cons] at hlast
      have hjoin_ne : joinChunks (w :: rest') ≠ [] := by
        have hw : w ≠ [] := hne w (List.mem_cons_of_mem _ (List.mem_cons_self _ _))
        cases w with
        | nil => exact absurd rfl hw
        | cons w0 wt => simp [joinChunks]
      show (v ++ joinChunks (w :: rest')).getLast? = t.getLast?
      rw [List.getLast?_append_of_ne_nil v hjoin_ne]
      exact ih t (fun u hu => hne u (List.mem_cons_of_mem _ hu)) hlast2

theorem alt_all_uniform : ∀ (cs : List (List Nat)), altChunks cs = true →
    ∀ t ∈ cs, uniformChunk t = true := by
  intro cs
  induction cs with
  | nil => intro _ t ht; exact absurd ht (List.not_mem_nil t)
  | cons u rest ih =>
    intro h t ht
    rcases List.mem_cons.mp ht with heq | hmem
    · rw [heq]; exact alt_head_uniform h
    · cases rest with
      | nil => exact absurd hmem (List.not_mem_nil t)
      | cons v rest' => exact ih (alt_tail h) t hmem

theorem noAdjSpace_joinChunks : ∀ (cs : List (List Nat)),
    altChunks cs = true → (∀ t ∈ cs, noAdjSpace t = true) →
    noAdjSpace (joinChunks cs) = true := by
  intro cs
  induction cs with
  | nil => intro _ _; rfl
  | cons t rest ih =>
    intro halt heach
    show noAdjSpace (t ++ joinChunks rest) = true
    cases rest with
    | nil =>
      have : t ++ joinChunks [] = t := by simp [joinChunks]
      rw [this]
      exact heach t (List.mem_cons_self _ _)
    | cons u rest' =>
      have huni_all := alt_all_uniform _ halt
      have hne_all : ∀ w ∈ u :: rest', w ≠ [] := fun w hw =>
        (uniformChunk_parts (huni_all w (List.mem_cons_of_mem _ hw))).1
      apply noAdjSpace_append (heach t (List.mem_cons_self _ _))
        (ih (alt_tail halt)
          (fun w hw => heach w (List.mem_cons_of_mem _ hw)))
      intro ⟨hlastT, hheadJ⟩
      rw [altChunks_pair] at halt
      simp only [Bool.and_eq_true, decide_eq_true_eq] at halt
      obtain ⟨⟨hut, hclass⟩, htail⟩ := halt
      obtain ⟨htne, htuni⟩ := uniformChunk_parts hut
      obtain ⟨hune, huuni⟩ :=
        uniformChunk_parts
          (huni_all u (List.mem_cons_of_mem _ (List.mem_cons_self _ _)))
      have hheadU : u.head? = some 32 := by
        rw [← joinChunks_head hne_all (by rw [List.head?_cons])]
        exact hheadJ
      cases hct : chunkClass t with
      | true =>
        have hz : (32 : Nat) ∈ t := List.mem_of_getLast?_eq_some hlastT
        have := htuni 32 hz
        rw [hct] at this
        exact word_ne_32 this rfl
      | false =>
        have hcu : chunkClass u = true := by
          cases hcu2 : chunkClass u with
          | true => rfl
          | false => rw [hct, hcu2] at hclass; exact absurd rfl hclass
        cases u with
        | nil => exact absurd rfl hune
        | cons u0 ut =>
          have hu0 : u0 = 32 := by simpa using hheadU
          have := huuni u0 (List.mem_cons_self _ _)
          rw [hcu] at this
          exact word_ne_32 this hu0

theorem mapLower_self_pointwise : ∀ (m : List Nat), mapLower m = m →
    ∀ x ∈ m, lowerChar x = x := by
  intro m
  induction m with
  | nil => intro _ x hx; exact absurd hx (List.not_mem_nil x)
  | cons a t ih =>
    intro h x hx
    have hsplit : lowerChar a = a ∧ mapLower t = t := by
      unfold mapLower at h
      rw [List.map_cons] at h
      exact ⟨(List.cons.injEq _ _ _ _ ▸ h).1, (List.cons.injEq _ _ _ _ ▸ h).2⟩
    rcases List.mem_cons.mp hx with heq | hmem
    · rw [heq]; exact hsplit.1
    · exact ih hsplit.2 x hmem

theorem abbreviations_word : ∀ kv ∈ abbreviations,
    wordStr kv.1 = true ∧ wordStr kv.2 = true :=
  fun kv hkv => ⟨(abbreviations_ok kv hkv).1, (abbreviations_ok kv hkv).2.1⟩

theorem foldPasses_chunk_cases {m t : List Nat}
    (ht : t ∈ chunks (foldPasses abbreviations m)) :
    (∃ kv ∈ abbreviations, t = kv.2) ∨ t ∈ chunks m :=
  foldPasses_chunk_origin abbreviations m abbreviations_word t ht

theorem foldPasses_all_allowed {m : List Nat}
    (hm : m.all allowedChar = true) :
    (foldPasses abbreviations m).all allowedChar = true := by
  rw [List.all_eq_true]
  intro x hx
  rw [← joinChunks_chunks (foldPasses abbreviations m)] at hx
  obtain ⟨t, ht, hxt⟩ := List.mem_flatten.mp hx
  rcases foldPasses_chunk_cases ht with ⟨kv, hkv, heq⟩ | h
  · exact ((abbreviations_ok kv hkv).2.2.1 x (heq ▸ hxt)).2.1
  · rw [List.all_eq_true] at hm
    exact hm x (mem_of_mem_chunks h hxt)

theorem foldPasses_lower_fixed {m : List Nat} (hm : mapLower m = m) :
    mapLower (foldPasses abbreviations m) = foldPasses abbreviations m := by
  have hpt : ∀ x ∈ foldPasses abbreviations m, lowerChar x = x := by
    intro x hx
    rw [← joinChunks_chunks (foldPasses abbreviations m)] at hx
    obtain ⟨t, ht, hxt⟩ := List.mem_flatten.mp hx
    rcases foldPasses_chunk_cases ht with ⟨kv, hkv, heq⟩ | h
    · exact ((abbreviations_ok kv hkv).2.2.1 x (heq ▸ hxt)).1
    · exact mapLower_self_pointwise m hm x (mem_of_mem_chunks h hxt)
  unfold mapLower
  rw [List.map_congr_left hpt]
  exact List.map_id' _

theorem foldPasses_noAdjSpace {m : List Nat} (hm : noAdjSpace m = true) :
    noAdjSpace (foldPasses abbreviations m) = true := by
  rw [← joinChunks_chunks (foldPasses abbreviations m)]
  apply noAdjSpace_joinChunks _ (altChunks_chunks _)
  intro t ht
  rcases foldPasses_chunk_cases ht with ⟨kv, hkv, heq⟩ | h
  · apply noAdjSpace_of_no_space
    intro x hx
    exact ((abbreviations_ok kv hkv).2.2.1 x (heq ▸ hx)).2.2
  · exact noAdjSpace_chunk hm h

theorem foldPasses_first_chunk : ∀ (tab : List (List Nat × List Nat))
    (l t : List Nat) (ts : List (List Nat)),
    (∀ kv ∈ tab, wordStr kv.1 = true ∧ wordStr kv.2 = true) →
    chunks l = t :: ts →
    ∃ t' ts', chunks (foldPasses tab l) = t' :: ts' ∧
      (t' = t ∨ ∃ kv ∈ tab, t' = kv.2) := by
  intro tab
  induction tab with
  | nil =>
    intro l t ts _ hl
    exact ⟨t, ts, hl, Or.inl rfl⟩
  | cons kv0 rest ih =>
    intro l t ts hw hl
    rw [foldPasses_cons]
    have hw0 := hw kv0 (List.mem_cons_self _ _)
    have hpass : chunks (expandPass kv0.1 kv0.2 l) =
        (if t = kv0.1 then kv0.2 else t) :: ts.map
          (fun u => if u = kv0.1 then kv0.2 else u) := by
      rw [chunks_expandPass l hw0.1 hw0.2, hl, List.map_cons]
    obtain ⟨t', ts', hfold, hcase⟩ := ih (expandPass kv0.1 kv0.2 l) _ _
      (fun kv hkv => hw kv (List.mem_cons_of_mem _ hkv)) hpass
    refine ⟨t', ts', hfold, ?_⟩
    rcases hcase with h | ⟨kv, hkv, heq⟩
    · by_cases hta : t = kv0.1
      · rw [h, if_pos hta]
        exact Or.inr ⟨kv0, List.mem_cons_self _ _, rfl⟩
      · rw [h, if_neg hta]
        exact Or.inl rfl
    · exact Or.inr ⟨kv, List.mem_cons_of_mem _ hkv, heq⟩

theorem expansion_head_not_space {kv : List Nat × List Nat}
    (hkv : kv ∈ abbreviations) : kv.2.head? ≠ some 32 := by
  cases hkv2 : kv.2 with
  | nil =>
    have := (abbreviations_ok kv hkv).2.1
    rw [hkv2] at this
    simp [wordStr] at this
  | cons v0 vt =>
    rw [List.head?_cons]
    intro hcon
    rw [Option.some_inj] at hcon
    exact ((abbreviations_ok kv hkv).2.2.1 v0
      (hkv2 ▸ List.mem_cons_self v0 vt)).2.2 hcon

theorem foldPasses_head {m : List Nat} (hm : m.head? ≠ some 32) :
    (foldPasses abbreviations m).head? ≠ some 32 := by
  cases m with
  | nil =>
    have hid : foldPasses abbreviations ([] : List Nat) = [] := by
      apply foldPasses_id
      intro u hu
      simp [chunks] at hu
    rw [hid]
    simp
  | cons m0 mt =>
    obtain ⟨t0, ts0, hshape⟩ := chunks_cons_shape m0 mt
    obtain ⟨t', ts', hfold, hcase⟩ :=
      foldPasses_first_chunk abbreviations (m0 :: mt) (m0 :: t0) ts0
        abbreviations_word hshape
    have hth : (foldPasses abbreviations (m0 :: mt)).head? = t'.head? := by
      rw [← joinChunks_chunks (foldPasses abbreviations (m0 :: mt)), hfold]
      exact joinChunks_head
        (fun u hu => chunks_ne_nil _ u (hfold ▸ hu)) (by rw [List.head?_cons])
    rw [hth]
    rcases hcase with h | ⟨kv, hkv, heq⟩
    · rw [h, List.head?_cons]
      intro hcon
      rw [Option.some_inj] at hcon
      exact hm (by rw [List.head?_cons, hcon])
    · rw [heq]
      exact expansion_head_not_space hkv

theorem expansion_last_not_space {kv : List Nat × List Nat}
    (hkv : kv ∈ abbreviations) : kv.2.getLast? ≠ some 32 := by
  intro hcon
  exact ((abbreviations_ok kv hkv).2.2.1 32
    (List.mem_of_getLast?_eq_some hcon)).2.2 rfl

theorem foldPasses_last_chunk : ∀ (tab : List (List Nat × List Nat))
    (l t : List Nat) (ts : List (List Nat)),
    (∀ kv ∈ tab, wordStr kv.1 = true ∧ wordStr kv.2 = true) →
    (chunks l).getLast? = some t →
    ∃ t', (chunks (foldPasses tab l)).getLast? = some t' ∧
      (t' = t ∨ ∃ kv ∈ tab, t' = kv.2) := by
  intro tab
  induction tab with
  | nil =>
    intro l t ts _ hl
    exact ⟨t, hl, Or.inl rfl⟩
  | cons kv0 rest ih =>
    intro l t ts hw hl
    rw [foldPasses_cons]
    have hw0 := hw kv0 (List.mem_cons_self _ _)
    have hpass : (chunks (expandPass kv0.1 kv0.2 l)).getLast? =
        some (if t = kv0.1 then kv0.2 else t) := by
      rw [chunks_expandPass l hw0.1 hw0.2, List.getLast?_map, hl]
      rfl
    obtain ⟨t', hfold, hcase⟩ := ih (expandPass kv0.1 kv0.2 l) _ ts
      (fun kv hkv => hw kv (List.mem_cons_of_mem _ hkv)) hpass
    refine ⟨t', hfold, ?_⟩
    rcases hcase with h | ⟨kv, hkv, heq⟩
    · by_cases hta : t = kv0.1
      · rw [h, if_pos hta]
        exact Or.inr ⟨kv0, List.mem_cons_self _ _, rfl⟩
      · rw [h, if_neg hta]
        exact Or.inl rfl
    · exact Or.inr ⟨kv, List.mem_cons_of_mem _ hkv, heq⟩

theorem chunks_getLast_of_self (l : List Nat) {t : List Nat}
    (h : (chunks l).getLast? = some t) : l.getLast? = t.getLast? := by
  rw [← joinChunks_chunks l]
  exact joinChunks_getLast (chunks l) t (chunks_ne_nil l) h

theorem foldPasses_last {m : List Nat} (hm : m.getLast? ≠ some 32) :
    (foldPasses abbreviations m).getLast? ≠ some 32 := by
  cases hc : (chunks m).getLast? with
  | none =>
    have hnil : m = [] := by
      cases hcm : chunks m with
      | nil => exact (chunks_eq_nil_iff m).mp hcm
      | cons c0 cs0 =>
        rw [hcm] at hc
        have : (c0 :: cs0).getLast? ≠ none := by
          cases hl : (c0 :: cs0).getLast? with
          | none =>
            rcases List.getLast?_eq_none_iff.mp hl with hcon
            exact absurd hcon (by simp)
          | some t => simp
        exact absurd hc this
    rw [hnil]
    have hid : foldPasses abbreviations ([] : List Nat) = [] := by
      apply foldPasses_id
      intro u hu
      simp [chunks] at hu
    rw [hid]
    simp
  | some t =>
    obtain ⟨t', hfold, hcase⟩ :=
      foldPasses_last_chunk abbreviations m t [] abbreviations_word hc
    have hE : (foldPasses abbreviations m).getLast? = t'.getLast? :=
      chunks_getLast_of_self _ hfold
    rw [hE]
    rcases hcase with h | ⟨kv, hkv, heq⟩
    · rw [h, ← chunks_getLast_of_self m hc]
      exact hm
    · rw [heq]
      exact expansion_last_not_space hkv

theorem foldPasses_cleanStr {m : List Nat} (hm : cleanStr m = true) :
    cleanStr (foldPasses abbreviations m) = true := by
  obtain ⟨p1, p2, p3, p4⟩ := cleanStr_parts hm
  simp only [cleanStr, Bool.and_eq_true, decide_eq_true_eq]
  exact ⟨⟨⟨foldPasses_all_allowed p1, foldPasses_noAdjSpace p2⟩,
    foldPasses_head p3⟩, foldPasses_last p4⟩

theorem foldPasses_no_keys (m : List Nat) :
    ∀ t ∈ chunks (foldPasses abbreviations m), ∀ kv ∈ abbreviations,
      t ≠ kv.1 := by
  intro t ht kv hkv
  have := foldPasses_avoid abbreviations [] m abbreviations_word
    (fun kv2 hkv2 => ⟨by simp,
      fun kv3 hkv3 => (abbreviations_ok kv2 hkv2).2.2.2 kv3 hkv3⟩)
    (fun t2 _ => by simp) t ht
  exact this.2 kv hkv

theorem expandAbbrev_idem_clean {s : List Nat} (h : cleanStr s = true) :
    expandAbbreviation (normalize (expandAbbreviation (normalize s))) =
      expandAbbreviation (normalize s) := by
  have hm : cleanStr (mapLower s) = true := cleanStr_mapLower h
  have hE : expandAbbreviation (normalize s) =
      foldPasses abbreviations (mapLower s) := by
    rw [expandAbbreviation_eq_foldPasses, normalize_eq_mapLower h,
      mapLower_idem]
  have hEclean : cleanStr (foldPasses abbreviations (mapLower s)) = true :=
    foldPasses_cleanStr hm
  have hElower : mapLower (foldPasses abbreviations (mapLower s)) =
      foldPasses abbreviations (mapLower s) :=
    foldPasses_lower_fixed (mapLower_idem s)
  rw [hE, normalize_eq_mapLower hEclean, hElower,
    expandAbbreviation_eq_foldPasses, hElower]
  exact foldPasses_id abbreviations _ (foldPasses_no_keys (mapLower s))

theorem normalizeAddress_fields (h s v d st p : List Nat) :
    normalizeAddress
      { house_number := h, street := s, village_city := v, district := d,
        state := st, pin_code := p } =
    { components :=
        { house_number := normalize h,
          street := expandAbbreviation (normalize s),
          village_city := normalize v, district := normalize d,
          state := normalize st, pin_code := trimJs p },
      normalizedString :=
        joinParts [normalize h, expandAbbreviation (normalize s),
          normalize v, normalize d, normalize st, trimJs p] } := by
  simp only [normalizeAddress]

/-- C6 (amended). For every address whose components are canonically
spaced over the letters/digits/underscore/space/hyphen alphabet (no
punctuation to strip, no leading/trailing/doubled spaces — the shape of
ordinary address data), feeding the components produced by
normalizeAddress back into normalizeAddress returns the identical record,
so in particular the identical normalized string, and hence for every
digest function the identical address hash. (Without that restriction the
claim fails: stripping punctuation can leave whitespace artifacts that a
second pass cleans differently — see the counterexample.) -/
theorem normalizeAddress_idempotent_clean (c : AddressComponents)
    (h1 : cleanStr c.house_number = true) (h2 : cleanStr c.street = true)
    (h3 : cleanStr c.village_city = true) (h4 : cleanStr c.district = true)
    (h5 : cleanStr c.state = true) (h6 : cleanStr c.pin_code = true) :
    normalizeAddress (normalizeAddress c).components = normalizeAddress c ∧
    ∀ H : List Nat → List Nat,
      generateAddressHash H
        (normalizeAddress (normalizeAddress c).components).normalizedString =
      generateAddressHash H (normalizeAddress c).normalizedString := by
  have hpin : trimJs c.pin_code = c.pin_code := by
    obtain ⟨p1, _, p3, p4⟩ := cleanStr_parts h6
    exact trimJs_eq_self p1 p3 p4
  have hcomp : (normalizeAddress c).components =
      { house_number := normalize c.house_number,
        street := expandAbbreviation (normalize c.street),
        village_city := normalize c.village_city,
        district := normalize c.district,
        state := normalize c.state,
        pin_code := trimJs c.pin_code } := by
    simp only [normalizeAddress]
  have hmain : normalizeAddress (normalizeAddress c).components =
      normalizeAddress c := by
    rw [hcomp, normalizeAddress_fields, normalize_idem_clean h1,
      expandAbbrev_idem_clean h2, normalize_idem_clean h3,
      normalize_idem_clean h4, normalize_idem_clean h5, hpin, hpin]
    simp only [normalizeAddress]
    rw [hpin]
  exact ⟨hmain, fun H => by rw [hmain]⟩

/-- A concrete canonically spaced address. -/
def cleanAddr : AddressComponents :=
  { house_number := codes "12-a", street := codes "Main St",
    village_city := codes "Pune City", district := codes "Pune",
    state := codes "MH", pin_code := codes "411001" }

/-- Witness for the amended C6 at a concrete address (with an
abbreviation in the street to exercise the expansion). -/
theorem normalizeAddress_idempotent_clean_witness :
    normalizeAddress (normalizeAddress cleanAddr).components =
      normalizeAddress cleanAddr ∧
    generateAddressHash OpenaiController.hashStub
        (normalizeAddress (normalizeAddress cleanAddr).components).normalizedString =
      generateAddressHash OpenaiController.hashStub
        (normalizeAddress cleanAddr).normalizedString :=
  ⟨(normalizeAddress_idempotent_clean cleanAddr (by decide) (by decide)
      (by decide) (by decide) (by decide) (by decide)).1,
   (normalizeAddress_idempotent_clean cleanAddr (by decide) (by decide)
      (by decide) (by decide) (by decide) (by decide)).2
      OpenaiController.hashStub⟩

/-- The house number with punctuation next to whitespace that breaks
idempotence. -/
def messyComps : AddressComponents :=
  { house_number := codes "a , b", street := [], village_city := [],
    district := [], state := [], pin_code := [] }

/-- C6 counterexample. On house number a-comma-b the first pass yields
the string a-space-space-b (the comma is stripped after whitespace runs
were collapsed, leaving a doubled space); re-normalizing the produced
components collapses it to a-space-b, a different normalized string with
a different digest (instantiated at an injective stand-in digest). -/
theorem normalizeAddress_not_idempotent :
    (normalizeAddress messyComps).normalizedString = codes "a  b" ∧
    (normalizeAddress
      (normalizeAddress messyComps).components).normalizedString =
      codes "a b" ∧
    generateAddressHash OpenaiController.hashStub
        (normalizeAddress messyComps).normalizedString ≠
      generateAddressHash OpenaiController.hashStub
        (normalizeAddress
          (normalizeAddress messyComps).components).normalizedString := by
  decide

end AddressValidationService

section SanityChecks

open AddressValidationService

example : codes "st" = [115, 116] := by decide

example : normalize (codes "  Main  St. ") = codes "main st" := by decide

example : expandAbbreviation (codes "main st") = codes "main street" := by decide

example : expandAbbreviation (codes "e-w rd") = codes "east-west road" := by decide

def sampleComps : AddressComponents :=
  { house_number := codes "12", street := codes "Main St",
    village_city := codes "Pune", district := [], state := [],
    pin_code := codes " 411001 " }

example :
    (normalizeAddress sampleComps).normalizedString =
      codes "12, main street, pune, 411001" := by decide

def messySample : AddressComponents :=
  { house_number := codes "a , b", street := [], village_city := [],
    district := [], state := [], pin_code := [] }

example :
    (normalizeAddress messySample).components.house_number = codes "a  b" := by
  decide

open NameValidationService in
example : soundex (codes "Robert") = codes "R163" := by decide

open NameValidationService in
example : soundex (codes "Rupert") = codes "R163" := by decide

open NameValidationService in
def aeioTbl : List FreqRow :=
  [{ name_token := codes "aeio", name_type := codes "first_name",
     frequency_score := 3 / 7 }]

open NameValidationService in
unseal Rat.add Rat.mul Rat.inv in
example : finalScore aeioTbl (codes "aeio") (codes "first_name") =
    498394 / 1000000 := by decide

open NameValidationService in
unseal Rat.add Rat.mul Rat.inv in
example :
    (validateName aeioTbl (codes "aeio") (codes "first_name")).valid = true ∧
    (validateName aeioTbl (codes "aeio") (codes "first_name")).validationResult
      = .flagged := by decide

end SanityChecks
